import Mathlib

/-!
Verification of the node-selection method layer of a data-transformation
build tool (selector_methods.py).  Python dictionaries are modelled as
insertion-ordered association lists, iterators as lists, and exceptions with
an explicit error monad.  External collaborators (fnmatch, the NodeType
enum, the version ordering, filesystem globbing, and the structural-equality
predicate surface of the manifest loader) are modelled as parameters bundled
in an `Ext` record, since their code lives outside this repository.
-/

namespace DbtSel

/-- Exceptions the selector layer can raise, mirroring the Python exception
classes (DbtRuntimeError, DbtInternalError, TypeError, KeyError, IndexError,
and the RuntimeError CPython raises when a set changes size during
iteration).  `fuelExhausted` is a modelling artifact of the bounded macro
traversal; it is proved unreachable. -/
inductive PyErr
  | dbtRuntime (msg : String)
  | dbtInternal (msg : String)
  | typeError
  | keyError (k : String)
  | indexError
  | runtimeSetChanged
  | fuelExhausted
deriving DecidableEq, Repr

/-- First-match lookup in an insertion-ordered association list; Python dict
keys are unique, so first-match agrees with dict lookup. -/
def alookup {α : Type} (l : List (String × α)) (k : String) : Option α :=
  match l with
  | [] => none
  | (k', v) :: rest => if k' = k then some v else alookup rest k

/-- The key sequence of a mapping, in insertion order. -/
def akeys {α : Type} (l : List (String × α)) : List String :=
  l.map Prod.fst

/-- Python str.split(sep) for a non-empty separator, over character lists
with explicit structural fuel so the kernel can evaluate it.  Every step
consumes at least one character, so fuel equal to the list length never runs
out; the fuel-exhausted value is never reached. -/
def splitSepGo (sep : List Char) : Nat → List Char → List (List Char)
  | _, [] => [[]]
  | 0, l => [l]
  | fuel + 1, c :: cs =>
    if sep ≠ [] ∧ sep.isPrefixOf (c :: cs) = true then
      [] :: splitSepGo sep fuel ((c :: cs).drop sep.length)
    else
      match splitSepGo sep fuel cs with
      | [] => [[c]]
      | chunk :: rest => (c :: chunk) :: rest

/-- Python str.split(sep). -/
def pySplit (s sep : String) : List String :=
  (splitSepGo sep.data s.data.length s.data).map (fun l => String.mk l)

/-- Wildcard characters recognized by is_selected_node: any of * ? [ ]. -/
def hasWildcard (s : String) : Bool :=
  s.data.any (fun c => c = '*' || c = '?' || c = '[' || c = ']')

def joinDot (l : List String) : String := String.intercalate "." l

def joinUnder (l : List String) : String := String.intercalate "_" l

/-- Python l[-2:]. -/
def lastTwo (l : List String) : List String := l.drop (l.length - 2)

/-- Flattening of fqn segments on dots: dots in model names act as namespace
separators (the list comprehension in is_selected_node). -/
def flattenFqn (fqn : List String) : List String :=
  (fqn.map (fun segment => pySplit segment ".")).flatten

/-- The selector-part walk of is_selected_node: literal comparison of
flat_fqn[i] with selector parts for ascending i; on the first wildcard part
the remainders of both sides are dot-joined and handed to fnmatch. -/
def isnWalk (fnm : String → String → Bool) : List String → List String → Bool
  | _, [] => true
  | f :: fr, p :: pr =>
    if hasWildcard p then fnm (joinDot (f :: fr)) (joinDot (p :: pr))
    else if f = p then isnWalk fnm fr pr
    else false
  | [], p :: pr =>
    -- unreachable when the caller has checked |parts| ≤ |flat_fqn|
    if hasWildcard p then fnm "" (joinDot (p :: pr)) else false

/-- Embedding of is_selected_node.  Negative indexing (fqn[-2], fqn[-1])
raises IndexError on lists that are too short, exactly as in Python. -/
def is_selected_node (fnm : String → String → Bool) (fqn : List String)
    (node_selector : String) (is_versioned : Bool) : Except PyErr Bool :=
  let tail : Except PyErr Bool :=
    let flat_fqn := flattenFqn fqn
    if flat_fqn.length < (pySplit node_selector ".").length then .ok false
    else .ok (isnWalk fnm flat_fqn (pySplit node_selector "."))
  if is_versioned then
    let flat_node_selector := pySplit node_selector "."
    if fqn.length < 2 then .error .indexError
    else if fqn.getD (fqn.length - 2) "" = node_selector then .ok true
    else if joinUnder (lastTwo fqn) = joinUnder (lastTwo flat_node_selector) then .ok true
    else tail
  else
    if fqn.length < 1 then .error .indexError
    else if fqn.getLastD "" = node_selector then .ok true
    else tail

/-- Modelled from the spec (§4.2 of the specification): the six-step fqn
matching procedure, written from the specification's words for comparison
with the embedded is_selected_node.  Step 4's prefix walk is rendered as an
equality of the prefixes before the first wildcard part, and step 5 as an
fnmatch of the dot-joined remainders. -/
def specFqnMatch (fnm : String → String → Bool) (fqn : List String)
    (S : String) (is_versioned : Bool) : Bool :=
  let Sparts := pySplit S "."
  if is_versioned &&
      (fqn.getD (fqn.length - 2) "" = S
        || joinUnder (lastTwo fqn) = joinUnder (lastTwo Sparts)) then
    true
  else if !is_versioned && fqn.getLastD "" = S then
    true
  else
    let F := flattenFqn fqn
    if F.length < Sparts.length then false
    else
      match Sparts.findIdx? hasWildcard with
      | some i =>
        decide (F.take i = Sparts.take i)
          && fnm (joinDot (F.drop i)) (joinDot (Sparts.drop i))
      | none => decide (F.take Sparts.length = Sparts)

/-- Python values reachable inside a node's config mapping.  Only plain data
lives there; attribute access on such values falls back to item access, so
_getattr_descend resolves exactly through dictionaries. -/
inductive Value
  | vStr (s : String)
  | vBool (b : Bool)
  | vInt (i : Int)
  | vNone
  | vList (l : List Value)
  | vDict (d : List (String × Value))

/-- Python truthiness of a config value. -/
def vTruthy : Value → Bool
  | .vStr s => !(s == "")
  | .vBool b => b
  | .vInt i => !(i == 0)
  | .vNone => false
  | .vList l => !l.isEmpty
  | .vDict d => !d.isEmpty

/-- The Python class of a selector target, used for isinstance dispatch. -/
inductive NodeClass
  | model
  | genericTest
  | singularTest
  | seed
  | snapshot
  | analysis
  | source
  | exposure
  | metric
  | semanticModel
  | savedQuery
  | unitTest
deriving DecidableEq, Repr

/-- A selector target: the field surface of the node variants that the
selection methods read.  hasattr-variable attributes (patch_path,
depends_on, test_metadata) are Options whose none means the attribute is
absent. -/
structure STarget where
  name : String
  packageName : String
  originalFilePath : String
  resourceType : String
  fqn : List String
  config : Value
  tags : List String
  isVersioned : Bool
  access : String
  version : Option String
  latestVersion : Option String
  isLatestVersion : Bool
  patchPath : Option String
  dependsOnMacros : Option (List String)
  sourceName : String
  testMetadataName : Option String
  cls : NodeClass

/-- A macro: its body and its macro dependencies. -/
structure MacroDef where
  macroSql : String
  dependsOnMacros : List String
deriving DecidableEq, Repr

/-- The manifest view consumed by selection: insertion-ordered read-only
mappings keyed by unique id, plus the metadata fields the methods read. -/
structure Manifest where
  nodes : List (String × STarget)
  sources : List (String × STarget)
  exposures : List (String × STarget)
  metrics : List (String × STarget)
  semanticModels : List (String × STarget)
  unitTests : List (String × STarget)
  savedQueries : List (String × STarget)
  macros : List (String × MacroDef)
  disabled : List (String × List STarget)
  projectName : Option String
  adapterType : Option String

/-- A previous-run result record (run_results). -/
structure RunResult where
  uniqueId : String
  status : String
deriving DecidableEq, Repr

/-- A source-freshness record; maxLoadedAt none means the record has no
max_loaded_at attribute (a runtime error result). -/
structure FreshnessResult where
  uniqueId : String
  maxLoadedAt : Option Int
deriving DecidableEq, Repr

/-- The optional previous-run state handed to the matchers. -/
structure PreviousState where
  manifest : Option Manifest
  results : Option (List RunResult)
  sources : Option (List FreshnessResult)
  sourcesCurrent : Option (List FreshnessResult)

/-- External collaborators of the selection core, modelled as functions:
fnmatch, the NodeType enum parse, the domain version ordering, the expanded
filesystem glob of the path method (a set of relative paths as component
lists), and the structural-equality predicate surface of the node variants
(an Option none models a missing attribute for a hasattr probe). -/
structure Ext where
  fnm : String → String → Bool
  nodeTypeParse : String → Option String
  verGt : String → String → Bool
  verLt : String → String → Bool
  paths : List (List String)
  sameContents1 : STarget → Option STarget → Bool
  sameContents2 : STarget → Option STarget → Option String → Bool
  cmpMethod : STarget → String → Option (STarget → Bool)
  contractMethod : STarget → String → Option (STarget → Option String → Bool)
  contractRemoved : STarget → String → Option (Unit → Bool)

/-- Intersection of a mapping with the included-id set, in the mapping's
insertion order (the shape of parsed_nodes, source_nodes, ...). -/
def includedOf (l : List (String × STarget)) (included : List String) :
    List (String × STarget) :=
  l.filter (fun p => p.1 ∈ included)

def parsedNodes (m : Manifest) (included : List String) : List (String × STarget) :=
  includedOf m.nodes included

def sourceNodes (m : Manifest) (included : List String) : List (String × STarget) :=
  includedOf m.sources included

def exposureNodes (m : Manifest) (included : List String) : List (String × STarget) :=
  includedOf m.exposures included

def metricNodes (m : Manifest) (included : List String) : List (String × STarget) :=
  includedOf m.metrics included

def unitTestNodes (m : Manifest) (included : List String) : List (String × STarget) :=
  includedOf m.unitTests included

def semanticModelNodes (m : Manifest) (included : List String) : List (String × STarget) :=
  includedOf m.semanticModels included

def savedQueryNodes (m : Manifest) (included : List String) : List (String × STarget) :=
  includedOf m.savedQueries included

/-- all_nodes: parsed, sources, exposures, metrics, unit_tests,
semantic_models, saved_queries — in that chain order. -/
def allNodes (m : Manifest) (included : List String) : List (String × STarget) :=
  parsedNodes m included ++ sourceNodes m included ++ exposureNodes m included
    ++ metricNodes m included ++ unitTestNodes m included
    ++ semanticModelNodes m included ++ savedQueryNodes m included

/-- non_source_nodes: parsed, exposures, metrics, unit_tests,
semantic_models, saved_queries. -/
def nonSourceNodes (m : Manifest) (included : List String) : List (String × STarget) :=
  parsedNodes m included ++ exposureNodes m included ++ metricNodes m included
    ++ unitTestNodes m included ++ semanticModelNodes m included
    ++ savedQueryNodes m included

/-- configurable_nodes: parsed + sources. -/
def configurableNodes (m : Manifest) (included : List String) : List (String × STarget) :=
  parsedNodes m included ++ sourceNodes m included

/-- parsed_and_unit_nodes: parsed + unit_tests. -/
def parsedAndUnitNodes (m : Manifest) (included : List String) : List (String × STarget) :=
  parsedNodes m included ++ unitTestNodes m included

/-- groupable_nodes: parsed + metrics. -/
def groupableNodes (m : Manifest) (included : List String) : List (String × STarget) :=
  parsedNodes m included ++ metricNodes m included

/-- A generator that may yield each iterated id once, under a boolean
predicate: the common shape of most search methods. -/
def yieldWhere (l : List (String × STarget)) (p : String → STarget → Bool) :
    List String :=
  l.filterMap (fun q => if p q.1 q.2 then some q.1 else none)

/-- As yieldWhere, for a per-node predicate that can raise. -/
def yieldWhereE (l : List (String × STarget))
    (p : String → STarget → Except PyErr Bool) : Except PyErr (List String) :=
  match l with
  | [] => .ok []
  | (u, n) :: rest => do
    let b ← p u n
    let r ← yieldWhereE rest p
    pure (if b then u :: r else r)

/-- A generator whose body may yield an id several times and may raise: the
shape of the path method. -/
def yieldManyE (l : List (String × STarget))
    (p : String → STarget → Except PyErr (List String)) : Except PyErr (List String) :=
  match l with
  | [] => .ok []
  | (u, n) :: rest => do
    let ys ← p u n
    let r ← yieldManyE rest p
    pure (ys ++ r)

/-- Python substring containment (the meaning of `selector in "data"`). -/
def strContains (hay needle : String) : Bool :=
  (List.range (hay.data.length + 1)).any
    (fun i => needle.data.isPrefixOf (hay.data.drop i))

/-- A relative filesystem path as its component list (model of pathlib's
PurePosixPath for the simple relative paths the selector layer touches). -/
def splitPath (s : String) : List String := pySplit s "/"

/-- The ancestors of a relative path, nearest first, ending with the "."
path — Path("a/b/c").parents = (a/b, a, .). -/
def pathParents (comps : List String) : List (List String) :=
  if comps.isEmpty then []
  else ((List.range (comps.length - 1)).reverse.map (fun k => comps.take (k + 1))) ++ [["."]]

/-- Path(p).name: the final component. -/
def pathName (s : String) : String := (splitPath s).getLastD ""

/-- Path(p).stem: the final component without its suffix; pathlib keeps the
whole name when the last dot is the first or the last character. -/
def pathStem (s : String) : String :=
  let nm := pathName s
  let cs := nm.data
  if '.' ∈ cs then
    let i := cs.length - 1 - cs.reverse.indexOf '.'
    if 0 < i ∧ i < cs.length - 1 then String.mk (cs.take i) else nm
  else nm

/-- Lookup of a key in a config value (dict .get); non-dicts hold no keys. -/
def alookupV (v : Value) (k : String) : Option Value :=
  match v with
  | .vDict d => alookup d k
  | _ => none

/-- Python str.upper. -/
def pyUpper (s : String) : String := String.mk (s.data.map Char.toUpper)

/-- QualifiedNameSelectorMethod.node_is_match: try the full fqn, then the
package-stripped fqn. -/
def node_is_match (fnm : String → String → Bool) (qualified_name : String)
    (fqn : List String) (is_versioned : Bool) : Except PyErr Bool := do
  if (← is_selected_node fnm fqn qualified_name is_versioned) then
    pure true
  else if (← is_selected_node fnm (fqn.drop 1) qualified_name is_versioned) then
    pure true
  else
    pure false

/-- QualifiedNameSelectorMethod.search. -/
def fqnSearch (E : Ext) (m : Manifest) (included : List String) (selector : String) :
    Except PyErr (List String) :=
  yieldWhereE (nonSourceNodes m included)
    (fun _ node => node_is_match E.fnm selector node.fqn node.isVersioned)

/-- TagSelectorMethod.search; every selector target carries tags, so the
hasattr guard is always satisfied. -/
def tagSearch (E : Ext) (m : Manifest) (included : List String) (selector : String) :
    Except PyErr (List String) :=
  .ok (yieldWhere (allNodes m included)
    (fun _ node => node.tags.any (fun tag => E.fnm tag selector)))

/-- GroupSelectorMethod.search: node.config.get("group"), truthiness, then
fnmatch — a truthy non-string group would make Python's fnmatch raise. -/
def groupSearch (E : Ext) (m : Manifest) (included : List String) (selector : String) :
    Except PyErr (List String) :=
  yieldWhereE (groupableNodes m included)
    (fun _ node =>
      match alookupV node.config "group" with
      | some v =>
        if vTruthy v then
          match v with
          | .vStr g => .ok (E.fnm g selector)
          | _ => .error .typeError
        else .ok false
      | none => .ok false)

/-- AccessSelectorMethod.search. -/
def accessSearch (m : Manifest) (included : List String) (selector : String) :
    Except PyErr (List String) :=
  .ok (yieldWhere (parsedNodes m included)
    (fun _ node => node.cls = .model && selector = node.access))

/-- SourceSelectorMethod.search. -/
def sourceSearch (E : Ext) (m : Manifest) (included : List String) (selector : String) :
    Except PyErr (List String) :=
  let parts := pySplit selector "."
  let run (target_package target_source target_table : String) : Except PyErr (List String) :=
    .ok (yieldWhere (sourceNodes m included)
      (fun _ node =>
        E.fnm node.packageName target_package
          && E.fnm node.sourceName target_source
          && E.fnm node.name target_table))
  match parts with
  | [s] => run "*" s "*"
  | [s, t] => run "*" s t
  | [p, s, t] => run p s t
  | _ =>
    .error (.dbtRuntime
      ("Invalid source selector value \"" ++ selector ++ "\". Sources must be of the "
        ++ "form `$\x7bsource_name\x7d`, "
        ++ "`$\x7bsource_name\x7d.$\x7btarget_name\x7d`, or "
        ++ "`$\x7bpackage_name\x7d.$\x7bsource_name\x7d.$\x7btarget_name\x7d"))

/-- The shared shape of the exposure / metric / semantic model / saved query
/ unit test searches: a 1- or 2-part dotted selector globbed against package
and name. -/
def dottedNameSearch (E : Ext) (l : List (String × STarget)) (selector : String)
    (errMsg : String) : Except PyErr (List String) :=
  let parts := pySplit selector "."
  let run (target_package target_name : String) : Except PyErr (List String) :=
    .ok (yieldWhere l
      (fun _ node => E.fnm node.packageName target_package && E.fnm node.name target_name))
  match parts with
  | [n] => run "*" n
  | [p, n] => run p n
  | _ => .error (.dbtRuntime errMsg)

/-- ExposureSelectorMethod.search. -/
def exposureSearch (E : Ext) (m : Manifest) (included : List String) (selector : String) :
    Except PyErr (List String) :=
  dottedNameSearch E (exposureNodes m included) selector
    ("Invalid exposure selector value \"" ++ selector ++ "\". Exposures must be of "
      ++ "the form $\x7bexposure_name\x7d or "
      ++ "$\x7bexposure_package.exposure_name\x7d")

/-- MetricSelectorMethod.search. -/
def metricSearch (E : Ext) (m : Manifest) (included : List String) (selector : String) :
    Except PyErr (List String) :=
  dottedNameSearch E (metricNodes m included) selector
    ("Invalid metric selector value \"" ++ selector ++ "\". Metrics must be of "
      ++ "the form $\x7bmetric_name\x7d or "
      ++ "$\x7bmetric_package.metric_name\x7d")

/-- SemanticModelSelectorMethod.search. -/
def semanticModelSearch (E : Ext) (m : Manifest) (included : List String)
    (selector : String) : Except PyErr (List String) :=
  dottedNameSearch E (semanticModelNodes m included) selector
    ("Invalid semantic model selector value \"" ++ selector ++ "\". Semantic models must be of "
      ++ "the form $\x7bsemantic_model_name\x7d or "
      ++ "$\x7bsemantic_model_package.semantic_model_name\x7d")

/-- SavedQuerySelectorMethod.search. -/
def savedQuerySearch (E : Ext) (m : Manifest) (included : List String)
    (selector : String) : Except PyErr (List String) :=
  dottedNameSearch E (savedQueryNodes m included) selector
    ("Invalid saved query selector value \"" ++ selector ++ "\". Saved queries must be of "
      ++ "the form $\x7bsaved_query_name\x7d or "
      ++ "$\x7bsaved_query_package.saved_query_name\x7d")

/-- UnitTestSelectorMethod.search. -/
def unitTestSearch (E : Ext) (m : Manifest) (included : List String)
    (selector : String) : Except PyErr (List String) :=
  dottedNameSearch E (unitTestNodes m included) selector
    ("Invalid unit test selector value \"" ++ selector ++ "\". Saved queries must be of "
      ++ "the form $\x7bunit_test_name\x7d or "
      ++ "$\x7bunit_test_package_name.unit_test_name\x7d")

/-- The per-node body of PathSelectorMethod.search: may yield the id up to
three times (original path, patch path, ancestor directory), and raises
IndexError when a truthy patch_path has no "://" separator. -/
def pathNodeYields (paths : List (List String)) (u : String) (node : STarget) :
    Except PyErr (List String) :=
  match node.patchPath with
  | some pp =>
    if pp ≠ "" then
      match pySplit pp "://" with
      | _ :: pfp :: _ =>
        .ok ((if splitPath node.originalFilePath ∈ paths then [u] else [])
          ++ (if splitPath pfp ∈ paths then [u] else [])
          ++ (if (pathParents (splitPath node.originalFilePath)).any
                (fun parent => parent ∈ paths) then [u] else []))
      | _ => .error .indexError
    else
      .ok ((if splitPath node.originalFilePath ∈ paths then [u] else [])
        ++ []
        ++ (if (pathParents (splitPath node.originalFilePath)).any
              (fun parent => parent ∈ paths) then [u] else []))
  | none =>
    .ok ((if splitPath node.originalFilePath ∈ paths then [u] else [])
      ++ []
      ++ (if (pathParents (splitPath node.originalFilePath)).any
            (fun parent => parent ∈ paths) then [u] else []))

/-- PathSelectorMethod.search, with the expanded glob supplied externally. -/
def pathSearch (E : Ext) (m : Manifest) (included : List String) (_selector : String) :
    Except PyErr (List String) :=
  yieldManyE (allNodes m included) (pathNodeYields E.paths)

/-- FileSelectorMethod.search. -/
def fileSearch (E : Ext) (m : Manifest) (included : List String) (selector : String) :
    Except PyErr (List String) :=
  .ok (yieldWhere (allNodes m included)
    (fun _ node =>
      E.fnm (pathName node.originalFilePath) selector
        || E.fnm (pathStem node.originalFilePath) selector))

/-- PackageSelectorMethod.search: `this` aliases the current project name. -/
def packageSearch (E : Ext) (m : Manifest) (included : List String) (selector : String) :
    Except PyErr (List String) :=
  let selector :=
    if selector = "this" then
      match m.projectName with
      | some pn => pn
      | none => selector
    else selector
  .ok (yieldWhere (allNodes m included)
    (fun _ node => E.fnm node.packageName selector))

/-- _getattr_descend over config data: attribute access on plain data falls
back to item access, so each step is a dictionary lookup; any failure is an
AttributeError, which the config search turns into a silent skip. -/
def getattrDescend (v : Value) (attrs : List String) : Option Value :=
  match attrs with
  | [] => some v
  | a :: rest =>
    match v with
    | .vDict d =>
      match alookup d a with
      | some w => getattrDescend w rest
      | none => none
    | _ => none

mutual

/-- Python == between config data values (bool and int compare numerically,
True == 1; lists compare element-wise, dicts by key lookup). -/
def pyEqV : Value → Value → Bool
  | .vStr a, .vStr b => a = b
  | .vBool a, .vBool b => a = b
  | .vInt a, .vInt b => a = b
  | .vBool a, .vInt b => (if a then (1 : Int) else 0) = b
  | .vInt a, .vBool b => a = (if b then (1 : Int) else 0)
  | .vNone, .vNone => true
  | .vList a, .vList b => pyEqVList a b
  | .vDict a, .vDict b => a.length = b.length && pyEqVDict a b
  | _, _ => false
termination_by v _ => sizeOf v

/-- Element-wise Python == on lists. -/
def pyEqVList : List Value → List Value → Bool
  | [], [] => true
  | x :: xs, y :: ys => pyEqV x y && pyEqVList xs ys
  | _, _ => false
termination_by l _ => sizeOf l

/-- Key-wise Python == on dicts: every key of the left dict maps to an equal
value in the right one. -/
def pyEqVDict : List (String × Value) → List (String × Value) → Bool
  | [], _ => true
  | (k, v) :: rest, b =>
    (match alookup b k with
      | some w => pyEqV v w
      | none => false) && pyEqVDict rest b
termination_by l _ => sizeOf l

end

/-- Python `value is True`. -/
def isBoolTrue : Value → Bool
  | .vBool true => true
  | _ => false

/-- Python `value is False`. -/
def isBoolFalse : Value → Bool
  | .vBool false => true
  | _ => false

/-- Equality of the (possibly CaseInsensitive) selector string with a config
value: CaseInsensitive.__eq__ upper-cases both sides for strings and
compares the upper-cased selector with non-strings (never equal to plain
data). -/
def selectorEqValue (ci : Bool) (selector : String) (v : Value) : Bool :=
  match v with
  | .vStr s => if ci then pyUpper selector = pyUpper s else selector = s
  | _ => false

/-- Membership of the (possibly CaseInsensitive) selector in a config list
value (Python `selector in value`). -/
def selectorInList (ci : Bool) (selector : String) (l : List Value) : Bool :=
  l.any (fun e => selectorEqValue ci selector e)

/-- Python `True in value` / `False in value` on a config list. -/
def boolInList (b : Bool) (l : List Value) : Bool :=
  l.any (fun e => pyEqV (.vBool b) e)

/-- ConfigSelectorMethod.search.  The severity special case makes the
selector CaseInsensitive; the false-branch of the scalar comparison parses
as A or B or (C and D), which is the intended rule. -/
def configSearch (arguments : List String) (m : Manifest) (included : List String)
    (selector : String) : Except PyErr (List String) :=
  let ci := arguments = ["severity"]
  .ok (yieldWhere (configurableNodes m included)
    (fun _ node =>
      match getattrDescend node.config arguments with
      | none => false
      | some value =>
        match value with
        | .vList l =>
          selectorInList ci selector l
            || (pyUpper selector = "TRUE" && boolInList true l)
            || (pyUpper selector = "FALSE" && boolInList false l)
        | _ =>
          selectorEqValue ci selector value
            || (pyUpper selector = "TRUE" && isBoolTrue value)
            || (pyUpper selector = "FALSE" && isBoolFalse value)))

/-- ResourceTypeSelectorMethod.search: NodeType(selector) parse, then exact
resource_type equality. -/
def resourceTypeSearch (E : Ext) (m : Manifest) (included : List String)
    (selector : String) : Except PyErr (List String) :=
  match E.nodeTypeParse selector with
  | none => .error (.dbtRuntime ("Invalid resource_type selector \"" ++ selector ++ "\""))
  | some resource_type =>
    .ok (yieldWhere (allNodes m included)
      (fun _ node => node.resourceType = resource_type))

/-- The NodeType.Test and NodeType.Unit enum values. -/
def nodeTypeTest : String := "test"

def nodeTypeUnit : String := "unit"

/-- TestNameSelectorMethod.search. -/
def testNameSearch (E : Ext) (m : Manifest) (included : List String)
    (selector : String) : Except PyErr (List String) :=
  .ok (yieldWhere (parsedAndUnitNodes m included)
    (fun _ node =>
      if node.resourceType = nodeTypeTest && node.testMetadataName.isSome then
        E.fnm (node.testMetadataName.getD "") selector
      else if node.resourceType = nodeTypeUnit then
        E.fnm node.name selector
      else false))

/-- TestTypeSelectorMethod.search.  `selector in ("data")` and the two other
single-string memberships are Python substring tests, reproduced as such. -/
def testTypeSearch (m : Manifest) (included : List String) (selector : String) :
    Except PyErr (List String) :=
  let search_types : Option (List NodeClass) :=
    if selector = "generic" || selector = "schema" then some [.genericTest]
    else if strContains "data" selector then some [.genericTest, .singularTest]
    else if strContains "singular" selector then some [.singularTest]
    else if strContains "unit" selector then some [.unitTest]
    else none
  match search_types with
  | none =>
    .error (.dbtRuntime
      ("Invalid test type selector " ++ selector
        ++ ": expected \"generic\", \"singular\", \"unit\", or \"data\""))
  | some tys =>
    .ok (yieldWhere (parsedAndUnitNodes m included) (fun _ node => node.cls ∈ tys))

/-- The version-method error message for an invalid selector. -/
def versionErrMsg (selector : String) : String :=
  "Invalid version type selector " ++ selector
    ++ ": expected one of: \"latest\", \"prerelease\", \"old\", or \"none\""

/-- The loop body of VersionSelectorMethod.search on one candidate: only
models are examined; the invalid-selector error is raised per candidate
model, inside the loop.  A version is truthy when present and non-empty. -/
def versionNodeCheck (E : Ext) (selector : String) (node : STarget) :
    Except PyErr Bool :=
  if node.cls = .model then
    if selector = "latest" then .ok node.isLatestVersion
    else if selector = "prerelease" then
      .ok (match node.version, node.latestVersion with
        | some v, some lv => v ≠ "" && lv ≠ "" && E.verGt v lv
        | _, _ => false)
    else if selector = "old" then
      .ok (match node.version, node.latestVersion with
        | some v, some lv => v ≠ "" && lv ≠ "" && E.verLt v lv
        | _, _ => false)
    else if selector = "none" then .ok (node.version = none)
    else .error (.dbtRuntime (versionErrMsg selector))
  else .ok false

/-- VersionSelectorMethod.search. -/
def versionSearch (E : Ext) (m : Manifest) (included : List String)
    (selector : String) : Except PyErr (List String) :=
  yieldWhereE (parsedNodes m included) (fun _ node => versionNodeCheck E selector node)

/-- ResultSelectorMethod.search. -/
def resultSearch (m : Manifest) (previous_state : Option PreviousState)
    (included : List String) (selector : String) : Except PyErr (List String) :=
  match previous_state with
  | none => .error (.dbtInternal "No comparison run_results")
  | some ps =>
    match ps.results with
    | none => .error (.dbtInternal "No comparison run_results")
    | some results =>
      let matchesSet := results.filterMap
        (fun r => if r.status = selector then some r.uniqueId else none)
      .ok (yieldWhere (allNodes m included) (fun u _ => u ∈ matchesSet))

/-- Python set.add on an insertion-ordered set model. -/
def saddset (s : List String) (x : String) : List String :=
  if x ∈ s then s else s ++ [x]

/-- Last-match lookup: Python dict comprehensions overwrite earlier
bindings of a repeated key. -/
def dlookupLast (l : List (String × Int)) (k : String) : Option Int :=
  alookup l.reverse k

/-- SourceStatusSelectorMethod.search.  Note two behaviours of the original
reproduced faithfully: the previous_state_sources_runtime_error set is built
from sources_current (not sources), and removing from the matches set while
iterating it raises RuntimeError, so the exclusion loop either does nothing
or blows up. -/
def sourceStatusSearch (m : Manifest) (previous_state : Option PreviousState)
    (included : List String) (selector : String) : Except PyErr (List String) := do
  match previous_state with
  | none => throw (PyErr.dbtInternal "No previous state comparison freshness results in sources.json")
  | some ps =>
    match ps.sources with
    | none => throw (PyErr.dbtInternal "No previous state comparison freshness results in sources.json")
    | some sources => do
      match ps.sourcesCurrent with
      | none => throw (PyErr.dbtInternal "No current state comparison freshness results in sources.json")
      | some sources_current => do
        let current_state_sources : List (String × Int) :=
          sources_current.filterMap
            (fun r => r.maxLoadedAt.map (fun t => (r.uniqueId, t)))
        let current_state_sources_runtime_error : List String :=
          sources_current.filterMap
            (fun r => if r.maxLoadedAt.isNone then some r.uniqueId else none)
        let previous_state_sources : List (String × Int) :=
          sources.filterMap
            (fun r => r.maxLoadedAt.map (fun t => (r.uniqueId, t)))
        let previous_state_sources_runtime_error : List String :=
          sources_current.filterMap
            (fun r => if r.maxLoadedAt.isNone then some r.uniqueId else none)
        let matchesSet ←
          if selector = "fresher" then do
            let found := (akeys current_state_sources).foldl
              (fun acc u =>
                match dlookupLast previous_state_sources u with
                | none => saddset acc u
                | some prev =>
                  match dlookupLast current_state_sources u with
                  | some cur => if prev < cur then saddset acc u else acc
                  | none => acc)
              []
            if found.any (fun u =>
                u ∈ previous_state_sources_runtime_error
                  || u ∈ current_state_sources_runtime_error) then
              throw PyErr.runtimeSetChanged
            else pure found
          else pure []
        pure (yieldWhere (allNodes m included) (fun u _ => u ∈ matchesSet))

/-- StateSelectorMethod._macros_modified: macro ids whose macro_sql differs
between the two manifests, plus ids added in the new manifest, plus ids
removed from the old one, in that iteration order. -/
def macrosModifiedList (old_macros new_macros : List (String × MacroDef)) : List String :=
  (new_macros.filterMap (fun q =>
    match alookup old_macros q.1 with
    | some old_mc => if q.2.macroSql ≠ old_mc.macroSql then some q.1 else none
    | none => some q.1))
  ++ (old_macros.filterMap (fun q =>
    if (alookup new_macros q.1).isNone then some q.1 else none))

/-- Result of the bounded macro-dependency traversal: the boolean answer
together with the visited list it built, a KeyError for a dependency id
missing from the macros mapping, or fuel exhaustion (proved unreachable for
the fuel bound used). -/
inductive TravResult
  | done (b : Bool) (visited : List String)
  | keyErr (k : String)
  | fuelOut
deriving DecidableEq, Repr

/-- The loop of recursively_check_macros_modified over a depends_on.macros
list, threading the shared visited list.  The Python guard
`len(node.depends_on.macros) > len(visited_macros)` before the final
continue has no effect (the loop continues either way) and is dropped.
Fuel decreases once per call; the bound proved sufficient depends only on
the manifest. -/
def recCheckGo (mcs : List (String × MacroDef)) (modified : List String) :
    Nat → List String → List String → TravResult
  | 0, _, _ => .fuelOut
  | _ + 1, [], visited => .done false visited
  | fuel + 1, macro_uid :: rest, visited =>
    if macro_uid ∈ visited then recCheckGo mcs modified fuel rest visited
    else
      let visited' := visited ++ [macro_uid]
      if macro_uid ∈ modified then .done true visited'
      else
        match alookup mcs macro_uid with
        | none => .keyErr macro_uid
        | some macro_node =>
          if macro_node.dependsOnMacros.length > 0 then
            match recCheckGo mcs modified fuel macro_node.dependsOnMacros visited' with
            | .done true v => .done true v
            | .done false v => recCheckGo mcs modified fuel rest v
            | r => r
          else recCheckGo mcs modified fuel rest visited'

/-- The traversal budget still chargeable to the not-yet-visited macros:
one step to visit each plus its dependency-list length, plus one slack. -/
def ssum (mcs : List (String × MacroDef)) (visited : List String) : Nat :=
  (mcs.map (fun q => if q.1 ∈ visited then 0 else q.2.dependsOnMacros.length + 2)).sum

/-- The fuel potential: the length of the pending dependency list plus the
unvisited-macro budget, plus one for the current call. -/
def travPotential (mcs : List (String × MacroDef)) (visited deps : List String) : Nat :=
  deps.length + 1 + ssum mcs visited

/-- recursively_check_macros_modified on a node's dependency list, run with
provably sufficient fuel. -/
def recursivelyCheckMacrosModified (mcs : List (String × MacroDef))
    (modified : List String) (deps : List String) : Except PyErr Bool :=
  match recCheckGo mcs modified (travPotential mcs [] deps) deps [] with
  | .done b _ => .ok b
  | .keyErr k => .error (.keyError k)
  | .fuelOut => .error .fuelExhausted

/-- StateSelectorMethod.check_macros_modified: short-circuit when no macro
changed, else traverse the node's depends_on.macros (a node without a
depends_on attribute never matches). -/
def checkMacrosModified (cur : Manifest) (old_manifest : Manifest)
    (node : Option STarget) : Except PyErr Bool :=
  let modified := macrosModifiedList old_manifest.macros cur.macros
  if modified.isEmpty then .ok false
  else
    match node with
    | none => .ok false
    | some n =>
      match n.dependsOnMacros with
      | none => .ok false
      | some deps => recursivelyCheckMacrosModified cur.macros modified deps

/-- The classes that override same_contents with a single-argument
signature in check_modified_content. -/
def simpleContentsClass (c : NodeClass) : Bool :=
  c = .source || c = .exposure || c = .metric || c = .semanticModel
    || c = .unitTest || c = .savedQuery

/-- StateSelectorMethod.check_modified_contract(compare_method,
adapter_type) — the returned closure. -/
def checkModifiedContractFn (E : Ext) (compare_method : String)
    (adapter_type : Option String) (old new : Option STarget) : Bool :=
  match new with
  | none =>
    match old with
    | some o =>
      match E.contractRemoved o (compare_method ++ "_removed") with
      | some f => f ()
      | none =>
        -- hasattr(new, compare_method) with new = None is false
        false
    | none => false
  | some n =>
    match E.contractMethod n compare_method with
    | some f =>
      match old with
      | none => true
      | some o => !(f o adapter_type)
    | none => false

/-- StateSelectorMethod.check_modified_content. -/
def checkModifiedContent (E : Ext) (cur : Manifest) (old_manifest : Manifest)
    (old new : Option STarget) (adapter_type : Option String) : Except PyErr Bool := do
  let different_contents :=
    match new with
    | some n =>
      if simpleContentsClass n.cls then !(E.sameContents1 n old)
      else !(E.sameContents2 n old adapter_type)
    | none => false
  let upstream_macro_change ← checkMacrosModified cur old_manifest new
  let check_modified_contract :=
    match old with
    | some o =>
      if o.cls = .model then checkModifiedContractFn E "same_contract" adapter_type old new
      else false
    | none => false
  pure (different_contents || upstream_macro_change || check_modified_contract)

/-- StateSelectorMethod.check_unmodified_content. -/
def checkUnmodifiedContent (E : Ext) (cur : Manifest) (old_manifest : Manifest)
    (old new : Option STarget) (adapter_type : Option String) : Except PyErr Bool := do
  pure (!(← checkModifiedContent E cur old_manifest old new adapter_type))

/-- StateSelectorMethod.check_modified_factory(compare_method) — the
returned closure check_modified_things. -/
def checkModifiedThings (E : Ext) (compare_method : String)
    (old new : Option STarget) : Bool :=
  match new with
  | some n =>
    match E.cmpMethod n compare_method with
    | some f =>
      match old with
      | none => true
      | some o => !(f o)
    | none => false
  | none => false

/-- The state_checks table keys, in insertion order. -/
def stateCheckKeys : List String :=
  ["new", "old", "modified", "unmodified", "modified.body", "modified.configs",
    "modified.persisted_descriptions", "modified.relation", "modified.macros",
    "modified.contract"]

/-- The checker selected by a state sub-selector, as a function of the
(old, new) pair; returns none for an unknown sub-selector. -/
def stateChecker (E : Ext) (cur : Manifest) (old_manifest : Manifest)
    (adapter_type : Option String) (selector : String) :
    Option (Option STarget → Option STarget → Except PyErr Bool) :=
  if selector = "new" then some (fun old _ => .ok old.isNone)
  else if selector = "old" then some (fun old _ => .ok old.isSome)
  else if selector = "modified" then
    some (fun old new => checkModifiedContent E cur old_manifest old new adapter_type)
  else if selector = "unmodified" then
    some (fun old new => checkUnmodifiedContent E cur old_manifest old new adapter_type)
  else if selector = "modified.body" then
    some (fun old new => .ok (checkModifiedThings E "same_body" old new))
  else if selector = "modified.configs" then
    some (fun old new => .ok (checkModifiedThings E "same_config" old new))
  else if selector = "modified.persisted_descriptions" then
    some (fun old new => .ok (checkModifiedThings E "same_persisted_description" old new))
  else if selector = "modified.relation" then
    some (fun old new => .ok (checkModifiedThings E "same_database_representation" old new))
  else if selector = "modified.macros" then
    some (fun _ new => checkMacrosModified cur old_manifest new)
  else if selector = "modified.contract" then
    some (fun old new => .ok (checkModifiedContractFn E "same_contract" adapter_type old new))
  else none

/-- Previous-node lookup: nodes first, then each other kind through its
from_resource constructor. -/
def previousNode (pm : Manifest) (unique_id : String) : Option STarget :=
  (alookup pm.nodes unique_id).orElse (fun _ =>
  (alookup pm.sources unique_id).orElse (fun _ =>
  (alookup pm.exposures unique_id).orElse (fun _ =>
  (alookup pm.metrics unique_id).orElse (fun _ =>
  (alookup pm.semanticModels unique_id).orElse (fun _ =>
  (alookup pm.unitTests unique_id).orElse (fun _ =>
  alookup pm.savedQueries unique_id))))))

/-- The sub-selectors whose checker (by Python __name__) also handles
removed nodes. -/
def removedPassKeys : List String := ["modified", "unmodified", "modified.contract"]

/-- The sub-selectors whose checker (by Python __name__) receives
adapter_type through keyword_args; "same_contract" in the original list
never matches a checker __name__, so modified.contract is absent. -/
def kwargsKeys : List String := ["modified", "unmodified"]

/-- The removed-node pass of StateSelectorMethod.search.  A previous node is
removed when its id is in the current disabled mapping (first shell) or
absent from the current nodes mapping.  The checker is invoked on
(removed, None) for diagnostics only; its result is discarded, but its
exceptions propagate — in particular, when the main loop ran zero
iterations, keyword_args was never filled, and a checker that requires
adapter_type raises TypeError at the call. -/
def stateRemovedPass (checker : Option STarget → Option STarget → Except PyErr Bool)
    (needsAdapter adapterFilled : Bool) (cur : Manifest) :
    List (String × STarget) → Except PyErr Unit
  | [] => .ok ()
  | q :: rest => do
    let removed_node : Option STarget ←
      match alookup cur.disabled q.1 with
      | some shells =>
        match shells with
        | shell :: _ => pure (some shell)
        | [] => throw PyErr.indexError
      | none =>
        if (alookup cur.nodes q.1).isNone then pure (some q.2) else pure none
    match removed_node with
    | some rn =>
      if needsAdapter && !adapterFilled then throw PyErr.typeError
      else do
        let _ ← checker (some rn) none
        stateRemovedPass checker needsAdapter adapterFilled cur rest
    | none => stateRemovedPass checker needsAdapter adapterFilled cur rest

/-- StateSelectorMethod.search. -/
def stateSearch (E : Ext) (m : Manifest) (previous_state : Option PreviousState)
    (included : List String) (selector : String) : Except PyErr (List String) := do
  match previous_state with
  | none => throw (PyErr.dbtRuntime "Got a state selector method, but no comparison manifest")
  | some ps =>
    match ps.manifest with
    | none => throw (PyErr.dbtRuntime "Got a state selector method, but no comparison manifest")
    | some pm =>
      let adapter_type := m.adapterType
      match stateChecker E m pm adapter_type selector with
      | none =>
        throw (PyErr.dbtRuntime
          ("Got an invalid selector \"" ++ selector ++ "\", expected one of "
            ++ "\"" ++ String.intercalate ", " stateCheckKeys ++ "\""))
      | some checker => do
        let main ← yieldWhereE (allNodes m included)
          (fun unique_id node => checker (previousNode pm unique_id) (some node))
        if selector ∈ removedPassKeys then do
          let adapterFilled := !(allNodes m included).isEmpty
          let needsAdapter := selector ∈ kwargsKeys
          stateRemovedPass checker needsAdapter adapterFilled m pm.nodes
          pure main
        else
          pure main

/-- The method names of the registry (MethodManager.SELECTOR_METHODS). -/
inductive Method
  | fqn
  | tag
  | group
  | access
  | source
  | path
  | file
  | package
  | config
  | testName
  | testType
  | resourceType
  | state
  | exposure
  | metric
  | result
  | sourceStatus
  | version
  | semanticModel
  | savedQuery
  | unitTest
deriving DecidableEq, Repr

/-- Dispatch of registry.get_method(name, args).search(included, selector):
one search per method name. -/
def searchMethod (E : Ext) (mth : Method) (m : Manifest)
    (previous_state : Option PreviousState) (arguments : List String)
    (included : List String) (selector : String) : Except PyErr (List String) :=
  match mth with
  | .fqn => fqnSearch E m included selector
  | .tag => tagSearch E m included selector
  | .group => groupSearch E m included selector
  | .access => accessSearch m included selector
  | .source => sourceSearch E m included selector
  | .path => pathSearch E m included selector
  | .file => fileSearch E m included selector
  | .package => packageSearch E m included selector
  | .config => configSearch arguments m included selector
  | .testName => testNameSearch E m included selector
  | .testType => testTypeSearch m included selector
  | .resourceType => resourceTypeSearch E m included selector
  | .state => stateSearch E m previous_state included selector
  | .exposure => exposureSearch E m included selector
  | .metric => metricSearch E m included selector
  | .result => resultSearch m previous_state included selector
  | .sourceStatus => sourceStatusSearch m previous_state included selector
  | .version => versionSearch E m included selector
  | .semanticModel => semanticModelSearch E m included selector
  | .savedQuery => savedQuerySearch E m included selector
  | .unitTest => unitTestSearch E m included selector

/-- A valid selector for a method, together with the method's state
preconditions: the conditions under which the search does not reject its
inputs before iterating (selector shape, enum membership, and required
previous-state components). -/
def methodOk (E : Ext) (mth : Method) (previous_state : Option PreviousState)
    (selector : String) : Prop :=
  match mth with
  | .source => (pySplit selector ".").length ≤ 3
  | .exposure | .metric | .semanticModel | .savedQuery | .unitTest =>
    (pySplit selector ".").length ≤ 2
  | .testType =>
    selector = "generic" ∨ selector = "schema" ∨ strContains "data" selector = true
      ∨ strContains "singular" selector = true ∨ strContains "unit" selector = true
  | .resourceType => (E.nodeTypeParse selector).isSome
  | .version =>
    selector = "latest" ∨ selector = "prerelease" ∨ selector = "old" ∨ selector = "none"
  | .state =>
    (∃ ps pm, previous_state = some ps ∧ ps.manifest = some pm)
      ∧ selector ∈ stateCheckKeys
  | .result => ∃ ps rs, previous_state = some ps ∧ ps.results = some rs
  | .sourceStatus =>
    ∃ ps s c, previous_state = some ps ∧ ps.sources = some s ∧ ps.sourcesCurrent = some c
  | _ => True

/-- No previous-manifest node is removed in the current manifest: each is
absent from current disorder disabled and still present in current nodes. -/
def removedFree (m pm : Manifest) : Prop :=
  ∀ q ∈ pm.nodes, alookup m.disabled q.1 = none ∧ (alookup m.nodes q.1).isSome = true

/-- The current-run freshness records carry pairwise-distinct ids (one
record per source). -/
def freshnessIdsNodup (previous_state : Option PreviousState) : Prop :=
  ∀ ps c, previous_state = some ps → ps.sourcesCurrent = some c →
    (c.map FreshnessResult.uniqueId).Nodup

/-- Reachability along macro dependencies through a macros mapping, starting
from a dependency list: the start ids are reachable, and dependencies of a
reachable macro are reachable. -/
inductive ReachableFrom (mcs : List (String × MacroDef)) (deps : List String) :
    String → Prop
  | start (u : String) : u ∈ deps → ReachableFrom mcs deps u
  | step (v u : String) (mc : MacroDef) : ReachableFrom mcs deps v →
      alookup mcs v = some mc → u ∈ mc.dependsOnMacros → ReachableFrom mcs deps u

/-- A macro id is modified between two manifests: present in both with
different macro_sql, or added, or removed — the claim's reading of
_macros_modified. -/
def IsModifiedMacro (old_macros new_macros : List (String × MacroDef))
    (u : String) : Prop :=
  match alookup new_macros u, alookup old_macros u with
  | some nm, some om => nm.macroSql ≠ om.macroSql
  | some _, none => True
  | none, some _ => True
  | none, none => False

/-- The macro mappings of both manifests and the depends_on lists of every
node and macro refer only to macros present in the current mapping — the
data-model invariant on depends_on.macros. -/
def macroDepsClosed (m : Manifest) : Prop :=
  (∀ q ∈ m.nodes ++ m.sources ++ m.exposures ++ m.metrics ++ m.unitTests
      ++ m.semanticModels ++ m.savedQueries,
    ∀ deps, (q : String × STarget).2.dependsOnMacros = some deps →
      ∀ d ∈ deps, (alookup m.macros d).isSome = true)
  ∧ ∀ q ∈ m.macros, ∀ d ∈ (q : String × MacroDef).2.dependsOnMacros,
      (alookup m.macros d).isSome = true

/-- The concatenation of every current-manifest mapping, for the uniqueness
invariant: an id refers to at most one entity across mappings. -/
def allMappings (m : Manifest) : List (String × STarget) :=
  m.nodes ++ m.sources ++ m.exposures ++ m.metrics ++ m.unitTests
    ++ m.semanticModels ++ m.savedQueries

/-- The id-uniqueness invariant over the current manifest. -/
def idsNodup (m : Manifest) : Prop :=
  (akeys (allMappings m)).Nodup

/-- Every disabled entry holds at least one shell (the [0] index the removed
pass takes). -/
def disabledNonEmpty (m : Manifest) : Prop :=
  ∀ q ∈ m.disabled, (q : String × List STarget).2 ≠ []

/-- A selector target with every optional surface empty, for building
concrete test inputs. -/
def stDefault : STarget where
  name := ""
  packageName := ""
  originalFilePath := ""
  resourceType := ""
  fqn := []
  config := .vDict []
  tags := []
  isVersioned := false
  access := ""
  version := none
  latestVersion := none
  isLatestVersion := false
  patchPath := none
  dependsOnMacros := none
  sourceName := ""
  testMetadataName := none
  cls := .model

/-- A concrete external-collaborator bundle: literal-equality fnmatch, a
NodeType enum of the common resource kinds, trivial version ordering and
structural predicates. -/
def extDefault : Ext where
  fnm := fun s p => s = p || p = "*"
  nodeTypeParse := fun s =>
    if s ∈ ["model", "source", "seed", "snapshot", "test", "unit_test"] then some s else none
  verGt := fun _ _ => false
  verLt := fun _ _ => false
  paths := []
  sameContents1 := fun _ _ => true
  sameContents2 := fun _ _ _ => true
  cmpMethod := fun _ _ => none
  contractMethod := fun _ _ => none
  contractRemoved := fun _ _ => none

/-- The empty manifest. -/
def mEmpty : Manifest where
  nodes := []
  sources := []
  exposures := []
  metrics := []
  semanticModels := []
  unitTests := []
  savedQueries := []
  macros := []
  disabled := []
  projectName := none
  adapterType := none

/-- A previous state with empty previous manifest. -/
def psEmpty : PreviousState where
  manifest := some mEmpty
  results := none
  sources := none
  sourcesCurrent := none

/-- A previous manifest holding one node that the (empty) current manifest
has removed. -/
def pmRemoved : Manifest :=
  { mEmpty with nodes := [("model.pkg.gone", stDefault)] }

/-- Previous state carrying pmRemoved. -/
def psRemoved : PreviousState where
  manifest := some pmRemoved
  results := none
  sources := none
  sourcesCurrent := none

/-- Externals whose path glob expanded to a directory and a file inside it. -/
def extPathDup : Ext :=
  { extDefault with paths := [["models"], ["models", "m.sql"]] }

/-- A manifest with a single model whose file is models/m.sql. -/
def mPathDup : Manifest :=
  { mEmpty with
    nodes := [("model.pkg.m", { stDefault with originalFilePath := "models/m.sql" })] }

/-- A manifest holding one source table whose fqn would match a selector. -/
def mOneSource : Manifest :=
  { mEmpty with
    sources := [("source.pkg.src.tbl",
      { stDefault with
        name := "tbl"
        sourceName := "src"
        packageName := "pkg"
        fqn := ["pkg", "src", "tbl"]
        cls := .source })] }

/-- A manifest with one model for the version-method witness. -/
def mOneModel : Manifest :=
  { mEmpty with
    nodes := [("model.pkg.m", { stDefault with name := "m", cls := .model })] }

/-- Freshness fixture: the previous run errored on the source (no
max_loaded_at) and the current run loaded it at time 100. -/
def psFresh : PreviousState where
  manifest := none
  results := none
  sources := some [⟨"source.pkg.src.tbl", none⟩]
  sourcesCurrent := some [⟨"source.pkg.src.tbl", some 100⟩]

/-- The model of the modified.macros scenario, depending on macro b. -/
def nodeM : STarget :=
  { stDefault with name := "m", dependsOnMacros := some ["macro.pkg.b"] }

/-- Macro fixture for the modified.macros scenario: current macro a has new
sql, macro b depends on a, model m depends on b. -/
def mMacros : Manifest :=
  { mEmpty with
    nodes := [("model.pkg.m", nodeM)]
    macros := [("macro.pkg.a", ⟨"Y", []⟩), ("macro.pkg.b", ⟨"B", ["macro.pkg.a"]⟩)] }

/-- The previous manifest for the macro scenario: macro a had sql X. -/
def pmMacros : Manifest :=
  { mEmpty with
    nodes := [("model.pkg.m", nodeM)]
    macros := [("macro.pkg.a", ⟨"X", []⟩), ("macro.pkg.b", ⟨"B", ["macro.pkg.a"]⟩)] }

/-- Previous state for the macro scenario. -/
def psMacros : PreviousState where
  manifest := some pmMacros
  results := none
  sources := none
  sourcesCurrent := none

/-- A model carrying config severity WARN. -/
def nodeSev : STarget :=
  { stDefault with name := "m", config := .vDict [("severity", .vStr "WARN")] }

/-- A config fixture: one model with severity WARN. -/
def mSeverity : Manifest :=
  { mEmpty with nodes := [("model.pkg.m", nodeSev)] }

/-- Decomposition of a successful Except bind. -/
theorem bindOk {α β : Type} {a : Except PyErr α} {f : α → Except PyErr β} {r : β}
    (h : (a >>= f) = .ok r) : ∃ x, a = .ok x ∧ f x = .ok r := by
  cases a with
  | ok x => exact ⟨x, rfl, h⟩
  | error e => simp [Bind.bind, Except.bind] at h

/-- Membership in a yieldWhere run. -/
theorem mem_yieldWhere {l : List (String × STarget)} {p : String → STarget → Bool}
    {u : String} : u ∈ yieldWhere l p ↔ ∃ n, (u, n) ∈ l ∧ p u n = true := by
  unfold yieldWhere
  rw [List.mem_filterMap]
  constructor
  · rintro ⟨⟨a, b⟩, hmem, hf⟩
    by_cases hp : p a b
    · simp [hp] at hf
      exact ⟨b, by simpa [hf] using hmem, by simpa [hf] using hp⟩
    · simp [hp] at hf
  · rintro ⟨n, hmem, hp⟩
    exact ⟨(u, n), hmem, by simp [hp]⟩

/-- A yieldWhere run is a subsequence of the iterated keys. -/
theorem yieldWhere_sublist (l : List (String × STarget)) (p : String → STarget → Bool) :
    List.Sublist (yieldWhere l p) (akeys l) := by
  induction l with
  | nil => simp [yieldWhere, akeys]
  | cons q rest ih =>
    unfold yieldWhere at ih ⊢
    simp only [List.filterMap_cons, akeys, List.map_cons]
    by_cases hp : p q.1 q.2
    · simpa [hp] using ih.cons₂ q.1
    · simpa [hp] using ih.cons q.1

/-- A successful yieldWhereE run is a subsequence of the iterated keys. -/
theorem yieldWhereE_ok_sublist {l : List (String × STarget)}
    {p : String → STarget → Except PyErr Bool} {r : List String}
    (h : yieldWhereE l p = .ok r) : List.Sublist r (akeys l) := by
  induction l generalizing r with
  | nil => simp [yieldWhereE] at h; simp [h, akeys]
  | cons q rest ih =>
    unfold yieldWhereE at h
    obtain ⟨b, hb, h2⟩ := bindOk h
    obtain ⟨r', hr', h3⟩ := bindOk h2
    simp only [pure, Except.pure, Except.ok.injEq] at h3
    subst h3
    by_cases hcase : b
    · simpa [hcase, akeys] using (ih hr').cons₂ q.1
    · simpa [hcase, akeys] using (ih hr').cons q.1

/-- In a successful yieldWhereE run, every iterated pair's predicate
evaluated successfully. -/
theorem yieldWhereE_ok_total {l : List (String × STarget)}
    {p : String → STarget → Except PyErr Bool} {r : List String}
    (h : yieldWhereE l p = .ok r) : ∀ q ∈ l, ∃ b, p q.1 q.2 = .ok b := by
  induction l generalizing r with
  | nil => intro q hq; simp at hq
  | cons q rest ih =>
    unfold yieldWhereE at h
    obtain ⟨b, hb, h2⟩ := bindOk h
    obtain ⟨r', hr', _⟩ := bindOk h2
    intro q' hq'
    rcases List.mem_cons.mp hq' with h' | h'
    · exact ⟨b, by rw [h']; exact hb⟩
    · exact ih hr' q' h'

/-- Membership in a successful yieldWhereE run, for a pair of the iterated
list whose key is not repeated. -/
theorem yieldWhereE_mem_iff {l : List (String × STarget)}
    {p : String → STarget → Except PyErr Bool} {r : List String} {u : String}
    {n : STarget} (h : yieldWhereE l p = .ok r) (hnd : (akeys l).Nodup)
    (hmem : (u, n) ∈ l) : u ∈ r ↔ p u n = .ok true := by
  induction l generalizing r with
  | nil => simp at hmem
  | cons q rest ih =>
    obtain ⟨k, node⟩ := q
    unfold yieldWhereE at h
    obtain ⟨b, hb, h2⟩ := bindOk h
    obtain ⟨r', hr', h3⟩ := bindOk h2
    simp only [pure, Except.pure, Except.ok.injEq] at h3
    subst h3
    simp only [akeys, List.map_cons, List.nodup_cons] at hnd
    rcases List.mem_cons.mp hmem with heq | hrest
    · injection heq with hu hn
      subst hu
      subst hn
      have hnotin : u ∉ r' := by
        intro hin
        have hsub := (yieldWhereE_ok_sublist hr').subset hin
        simp only [akeys] at hsub
        exact hnd.1 hsub
      cases b with
      | true =>
        simp only [if_pos rfl]
        simp [hb]
      | false =>
        rw [if_neg (by simp)]
        exact iff_of_false hnotin (by simp [hb])
    · have hu_in : u ∈ List.map Prod.fst rest := List.mem_map.mpr ⟨(u, n), hrest, rfl⟩
      have hku : k ≠ u := fun hk => hnd.1 (hk ▸ hu_in)
      have hiff := ih hr' hnd.2 hrest
      cases b with
      | true =>
        rw [if_pos rfl, List.mem_cons]
        constructor
        · rintro (hk | hin)
          · exact (hku hk.symm).elim
          · exact hiff.mp hin
        · intro hp
          exact Or.inr (hiff.mpr hp)
      | false =>
        rw [if_neg (by simp)]
        exact hiff

/-- Membership in includedOf. -/
theorem mem_includedOf {l : List (String × STarget)} {included : List String}
    {q : String × STarget} : q ∈ includedOf l included ↔ q ∈ l ∧ q.1 ∈ included := by
  unfold includedOf
  rw [List.mem_filter]
  simp

/-- includedOf with no included ids is empty. -/
theorem includedOf_nil (l : List (String × STarget)) : includedOf l [] = [] := by
  unfold includedOf
  induction l with
  | nil => rfl
  | cons q rest ih => simp [ih]

/-- includedOf is a subsequence of the mapping. -/
theorem includedOf_sublist (l : List (String × STarget)) (included : List String) :
    List.Sublist (includedOf l included) l :=
  List.filter_sublist l

/-- Keys of every kind-filtered iterator lie in the included set:
all_nodes. -/
theorem allNodes_key_included {m : Manifest} {included : List String}
    {q : String × STarget} (h : q ∈ allNodes m included) : q.1 ∈ included := by
  simp only [allNodes, List.mem_append] at h
  rcases h with ((((((h | h) | h) | h) | h) | h) | h) <;> exact (mem_includedOf.mp h).2

/-- Keys of non_source_nodes lie in the included set. -/
theorem nonSourceNodes_key_included {m : Manifest} {included : List String}
    {q : String × STarget} (h : q ∈ nonSourceNodes m included) : q.1 ∈ included := by
  simp only [nonSourceNodes, List.mem_append] at h
  rcases h with (((((h | h) | h) | h) | h) | h) <;> exact (mem_includedOf.mp h).2

/-- Keys of configurable_nodes lie in the included set. -/
theorem configurableNodes_key_included {m : Manifest} {included : List String}
    {q : String × STarget} (h : q ∈ configurableNodes m included) : q.1 ∈ included := by
  simp only [configurableNodes, List.mem_append] at h
  rcases h with h | h <;> exact (mem_includedOf.mp h).2

/-- Keys of parsed_and_unit_nodes lie in the included set. -/
theorem parsedAndUnitNodes_key_included {m : Manifest} {included : List String}
    {q : String × STarget} (h : q ∈ parsedAndUnitNodes m included) : q.1 ∈ included := by
  simp only [parsedAndUnitNodes, List.mem_append] at h
  rcases h with h | h <;> exact (mem_includedOf.mp h).2

/-- Keys of groupable_nodes lie in the included set. -/
theorem groupableNodes_key_included {m : Manifest} {included : List String}
    {q : String × STarget} (h : q ∈ groupableNodes m included) : q.1 ∈ included := by
  simp only [groupableNodes, List.mem_append] at h
  rcases h with h | h <;> exact (mem_includedOf.mp h).2

/-- All composite iterators are empty on the empty included set. -/
theorem allNodes_nil (m : Manifest) : allNodes m [] = [] := by
  simp [allNodes, parsedNodes, sourceNodes, exposureNodes, metricNodes,
    unitTestNodes, semanticModelNodes, savedQueryNodes, includedOf_nil]

theorem nonSourceNodes_nil (m : Manifest) : nonSourceNodes m [] = [] := by
  simp [nonSourceNodes, parsedNodes, exposureNodes, metricNodes,
    unitTestNodes, semanticModelNodes, savedQueryNodes, includedOf_nil]

theorem configurableNodes_nil (m : Manifest) : configurableNodes m [] = [] := by
  simp [configurableNodes, parsedNodes, sourceNodes, includedOf_nil]

theorem parsedAndUnitNodes_nil (m : Manifest) : parsedAndUnitNodes m [] = [] := by
  simp [parsedAndUnitNodes, parsedNodes, unitTestNodes, includedOf_nil]

theorem groupableNodes_nil (m : Manifest) : groupableNodes m [] = [] := by
  simp [groupableNodes, parsedNodes, metricNodes, includedOf_nil]

/-- A sublist extends on the right. -/
theorem sublist_ext_right {α : Type} {x y : List α} (s : List α)
    (h : List.Sublist x y) : List.Sublist x (y ++ s) :=
  h.trans (List.sublist_append_left y s)

/-- The keys of includedOf form a subsequence of the mapping's keys. -/
theorem includedOf_keys_sublist (l : List (String × STarget)) (included : List String) :
    List.Sublist (akeys (includedOf l included)) (akeys l) :=
  (includedOf_sublist l included).map Prod.fst

/-- The keys of all_nodes form a subsequence of the concatenated manifest
mappings' keys. -/
theorem allNodes_keys_sublist (m : Manifest) (included : List String) :
    List.Sublist (akeys (allNodes m included)) (akeys (allMappings m)) := by
  simp only [allNodes, allMappings, akeys, List.map_append]
  exact (((((((includedOf_keys_sublist m.nodes included).append
    (includedOf_keys_sublist m.sources included)).append
    (includedOf_keys_sublist m.exposures included)).append
    (includedOf_keys_sublist m.metrics included)).append
    (includedOf_keys_sublist m.unitTests included)).append
    (includedOf_keys_sublist m.semanticModels included)).append
    (includedOf_keys_sublist m.savedQueries included))

/-- The keys of non_source_nodes form a subsequence of the concatenated
manifest mappings' keys. -/
theorem nonSourceNodes_keys_sublist (m : Manifest) (included : List String) :
    List.Sublist (akeys (nonSourceNodes m included)) (akeys (allMappings m)) := by
  simp only [nonSourceNodes, allMappings, akeys, List.map_append]
  have h1 : List.Sublist (List.map Prod.fst (includedOf m.nodes included))
      (List.map Prod.fst m.nodes ++ List.map Prod.fst m.sources) :=
    sublist_ext_right _ (includedOf_keys_sublist m.nodes included)
  exact ((((h1.append (includedOf_keys_sublist m.exposures included)).append
    (includedOf_keys_sublist m.metrics included)).append
    (includedOf_keys_sublist m.unitTests included)).append
    (includedOf_keys_sublist m.semanticModels included)).append
    (includedOf_keys_sublist m.savedQueries included)

/-- The keys of configurable_nodes form a subsequence of the concatenated
manifest mappings' keys. -/
theorem configurableNodes_keys_sublist (m : Manifest) (included : List String) :
    List.Sublist (akeys (configurableNodes m included)) (akeys (allMappings m)) := by
  simp only [configurableNodes, allMappings, akeys, List.map_append]
  exact sublist_ext_right _ (sublist_ext_right _ (sublist_ext_right _
    (sublist_ext_right _ (sublist_ext_right _
      ((includedOf_keys_sublist m.nodes included).append
        (includedOf_keys_sublist m.sources included))))))

/-- The keys of parsed_and_unit_nodes form a subsequence of the concatenated
manifest mappings' keys. -/
theorem parsedAndUnitNodes_keys_sublist (m : Manifest) (included : List String) :
    List.Sublist (akeys (parsedAndUnitNodes m included)) (akeys (allMappings m)) := by
  simp only [parsedAndUnitNodes, allMappings, akeys, List.map_append]
  have h1 : List.Sublist (List.map Prod.fst (includedOf m.nodes included))
      (List.map Prod.fst m.nodes ++ List.map Prod.fst m.sources
        ++ List.map Prod.fst m.exposures ++ List.map Prod.fst m.metrics) :=
    sublist_ext_right _ (sublist_ext_right _
      (sublist_ext_right _ (includedOf_keys_sublist m.nodes included)))
  exact sublist_ext_right _ (sublist_ext_right _
    (h1.append (includedOf_keys_sublist m.unitTests included)))

/-- The keys of groupable_nodes form a subsequence of the concatenated
manifest mappings' keys. -/
theorem groupableNodes_keys_sublist (m : Manifest) (included : List String) :
    List.Sublist (akeys (groupableNodes m included)) (akeys (allMappings m)) := by
  simp only [groupableNodes, allMappings, akeys, List.map_append]
  have h1 : List.Sublist (List.map Prod.fst (includedOf m.nodes included))
      (List.map Prod.fst m.nodes ++ List.map Prod.fst m.sources
        ++ List.map Prod.fst m.exposures) :=
    sublist_ext_right _ (sublist_ext_right _ (includedOf_keys_sublist m.nodes included))
  exact sublist_ext_right _ (sublist_ext_right _ (sublist_ext_right _
    (h1.append (includedOf_keys_sublist m.metrics included))))

/-- The keys of parsed_nodes form a subsequence of the concatenated manifest
mappings' keys. -/
theorem parsedNodes_keys_sublist (m : Manifest) (included : List String) :
    List.Sublist (akeys (parsedNodes m included)) (akeys (allMappings m)) := by
  simp only [parsedNodes, allMappings, akeys, List.map_append]
  exact sublist_ext_right _ (sublist_ext_right _ (sublist_ext_right _
    (sublist_ext_right _ (sublist_ext_right _ (sublist_ext_right _
      (includedOf_keys_sublist m.nodes included))))))

/-- The keys of source_nodes form a subsequence of the concatenated manifest
mappings' keys. -/
theorem sourceNodes_keys_sublist (m : Manifest) (included : List String) :
    List.Sublist (akeys (sourceNodes m included)) (akeys (allMappings m)) := by
  simp only [sourceNodes, allMappings, akeys, List.map_append]
  have h1 : List.Sublist (List.map Prod.fst (includedOf m.sources included))
      (List.map Prod.fst m.nodes ++ List.map Prod.fst m.sources) :=
    (includedOf_keys_sublist m.sources included).trans
      (List.sublist_append_right _ _)
  exact sublist_ext_right _ (sublist_ext_right _ (sublist_ext_right _
    (sublist_ext_right _ (sublist_ext_right _ h1))))

/-- The code's walk agrees with the spec's first-wildcard-index reading when
the selector has no more parts than the flattened fqn: compare literally up
to the first wildcard part, then fnmatch the dot-joined remainders, or
require prefix equality when no part has a wildcard. -/
theorem isnWalk_eq_spec (fnm : String → String → Bool) :
    ∀ (parts flat : List String), parts.length ≤ flat.length →
    isnWalk fnm flat parts =
      (match parts.findIdx? hasWildcard with
      | some i =>
        decide (flat.take i = parts.take i)
          && fnm (joinDot (flat.drop i)) (joinDot (parts.drop i))
      | none => decide (flat.take parts.length = parts)) := by
  intro parts
  induction parts with
  | nil =>
    intro flat _
    simp [isnWalk, List.findIdx?]
  | cons p pr ih =>
    intro flat h
    match flat with
    | [] => simp at h
    | f :: fr =>
      by_cases hw : hasWildcard p
      · have hidx : (p :: pr).findIdx? hasWildcard = some 0 := by
          rw [List.findIdx?_cons, if_pos hw]
        rw [hidx]
        simp [isnWalk, hw]
      · have hidx : (p :: pr).findIdx? hasWildcard
            = (pr.findIdx? hasWildcard).map (fun i => i + 1) := by
          rw [List.findIdx?_cons, if_neg hw, List.findIdx?_succ]
        have hlen : pr.length ≤ fr.length := by simpa using Nat.le_of_succ_le_succ h
        by_cases hf : f = p
        · subst hf
          have hih := ih fr hlen
          rw [hidx]
          cases hpr : pr.findIdx? hasWildcard with
          | none =>
            rw [hpr] at hih
            have hwalk : isnWalk fnm (f :: fr) (f :: pr) = isnWalk fnm fr pr := by
              simp [isnWalk, hw]
            rw [Option.map_none', hwalk, hih]
            have hiff : ((f :: fr).take (f :: pr).length = f :: pr)
                ↔ (fr.take pr.length = pr) := by
              simp [List.take_succ_cons]
            simp only [List.length_cons]
            rw [show decide ((f :: fr).take (pr.length + 1) = f :: pr)
                = decide (fr.take pr.length = pr) from decide_eq_decide.mpr (by
                  simp [List.take_succ_cons])]
          | some i =>
            rw [hpr] at hih
            have hwalk : isnWalk fnm (f :: fr) (f :: pr) = isnWalk fnm fr pr := by
              simp [isnWalk, hw]
            rw [Option.map_some', hwalk, hih]
            have heq : decide ((f :: fr).take (i + 1) = (f :: pr).take (i + 1))
                = decide (fr.take i = pr.take i) :=
              decide_eq_decide.mpr (by simp [List.take_succ_cons])
            simp only [List.drop_succ_cons, heq]
        · have hwalk : isnWalk fnm (f :: fr) (p :: pr) = false := by
            simp [isnWalk, hw, hf]
          rw [hidx, hwalk]
          cases hpr : pr.findIdx? hasWildcard with
          | none =>
            rw [Option.map_none']
            have : ¬((f :: fr).take (p :: pr).length = p :: pr) := by
              simp only [List.length_cons, List.take_succ_cons]
              intro hcon
              exact hf (List.cons.injEq .. ▸ hcon).1
            simp [this]
            exact fun hfp => absurd hfp hf
          | some i =>
            rw [Option.map_some']
            have : ¬((f :: fr).take (i + 1) = (p :: pr).take (i + 1)) := by
              simp only [List.take_succ_cons]
              intro hcon
              exact hf (List.cons.injEq .. ▸ hcon).1
            simp [this]
            exact fun hfp _ => absurd hfp hf

/-- C5: for every fqn satisfying the data-model invariant (non-empty; for
versioned models at least package, pre-version leaf, and version segments)
and every selector string, is_selected_node returns true exactly when the
spec's six-step procedure matches: versioned leaf shortcut, plain leaf
shortcut for unversioned nodes, the length guard, the literal prefix walk
failing on mismatch, and the fnmatch glob tail from the first selector part
containing a wildcard. -/
theorem c5_is_selected_node_six_steps (fnm : String → String → Bool)
    (fqn : List String) (S : String) (is_versioned : Bool)
    (h1 : 1 ≤ fqn.length) (h2 : is_versioned = true → 3 ≤ fqn.length) :
    is_selected_node fnm fqn S is_versioned
      = .ok (specFqnMatch fnm fqn S is_versioned) := by
  cases is_versioned with
  | true =>
    have h3 : 3 ≤ fqn.length := h2 rfl
    have hnl : ¬(fqn.length < 2) := by omega
    by_cases hA : fqn[fqn.length - 2]?.getD "" = S
    · simp [is_selected_node, specFqnMatch, hnl, hA, List.getD_eq_getElem?_getD]
    · by_cases hB : joinUnder (lastTwo fqn) = joinUnder (lastTwo (pySplit S "."))
      · simp [is_selected_node, specFqnMatch, hnl, hA, hB, List.getD_eq_getElem?_getD]
      · by_cases hlen : (flattenFqn fqn).length < (pySplit S ".").length
        · simp [is_selected_node, specFqnMatch, hnl, hA, hB, hlen,
            List.getD_eq_getElem?_getD]
        · have hle : (pySplit S ".").length ≤ (flattenFqn fqn).length :=
            Nat.le_of_not_lt hlen
          simp [is_selected_node, specFqnMatch, hnl, hA, hB, hlen,
            List.getD_eq_getElem?_getD,
            isnWalk_eq_spec fnm (pySplit S ".") (flattenFqn fqn) hle]
  | false =>
    have hnl : ¬(fqn.length < 1) := by omega
    by_cases hA : fqn.getLast?.getD "" = S
    · simp [is_selected_node, specFqnMatch, hnl, hA, List.getLastD_eq_getLast?]
    · by_cases hlen : (flattenFqn fqn).length < (pySplit S ".").length
      · simp [is_selected_node, specFqnMatch, hnl, hA, hlen, List.getLastD_eq_getLast?]
      · have hle : (pySplit S ".").length ≤ (flattenFqn fqn).length :=
          Nat.le_of_not_lt hlen
        simp [is_selected_node, specFqnMatch, hnl, hA, hlen, List.getLastD_eq_getLast?,
          isnWalk_eq_spec fnm (pySplit S ".") (flattenFqn fqn) hle]

/-- Witness for C5 at the versioned model of the spec's scenario 1: fqn
["pkg", "orders", "v2"], selector "orders.v2". -/
theorem c5_is_selected_node_six_steps_witness :
    (1 ≤ (["pkg", "orders", "v2"] : List String).length)
      ∧ (true = true → 3 ≤ (["pkg", "orders", "v2"] : List String).length)
      ∧ is_selected_node (fun a b => a = b) ["pkg", "orders", "v2"] "orders.v2" true
          = .ok (specFqnMatch (fun a b => a = b) ["pkg", "orders", "v2"] "orders.v2" true)
      ∧ specFqnMatch (fun a b => a = b) ["pkg", "orders", "v2"] "orders.v2" true = true :=
  ⟨by decide, fun _ => by decide,
    c5_is_selected_node_six_steps (fun a b => a = b) ["pkg", "orders", "v2"]
      "orders.v2" true (by decide) (fun _ => by decide),
    by decide⟩

/-- C8 counterexample: with an invalid selector but no included model node,
the version method completes normally and yields nothing instead of raising
— the error is raised per candidate model inside the loop, so it is not
raised for every manifest and included set. -/
theorem c8_counterexample :
    searchMethod extDefault .version mEmpty none [] [] "bogus" = .ok []
      ∧ ∀ e, searchMethod extDefault .version mEmpty none [] [] "bogus" ≠ .error e := by
  constructor
  · rfl
  · intro e h
    rw [show searchMethod extDefault .version mEmpty none [] [] "bogus" = .ok [] from rfl]
      at h
    exact Except.noConfusion h

/-- With an invalid selector, the version loop body errors on models and
passes over non-models. -/
theorem versionNodeCheck_invalid {E : Ext} {sel : String} (node : STarget)
    (hs1 : sel ≠ "latest") (hs2 : sel ≠ "prerelease") (hs3 : sel ≠ "old")
    (hs4 : sel ≠ "none") :
    versionNodeCheck E sel node =
      (if node.cls = NodeClass.model then .error (.dbtRuntime (versionErrMsg sel))
        else .ok false) := by
  unfold versionNodeCheck
  by_cases hq : node.cls = NodeClass.model <;> simp [hq, hs1, hs2, hs3, hs4]

/-- The version loop on any candidate list with an invalid selector: error
exactly when the list holds a model. -/
theorem versionLoop_invalid (E : Ext) (sel : String) (l : List (String × STarget))
    (hs1 : sel ≠ "latest") (hs2 : sel ≠ "prerelease") (hs3 : sel ≠ "old")
    (hs4 : sel ≠ "none") :
    yieldWhereE l (fun _ node => versionNodeCheck E sel node) =
      (if l.any (fun q => q.2.cls = NodeClass.model) then
        .error (.dbtRuntime (versionErrMsg sel))
      else .ok []) := by
  induction l with
  | nil => rfl
  | cons q rest ih =>
    unfold yieldWhereE
    rw [versionNodeCheck_invalid q.2 hs1 hs2 hs3 hs4]
    by_cases hq : q.2.cls = NodeClass.model
    · simp [hq, Bind.bind, Except.bind]
    · simp only [if_neg hq, List.any_cons]
      rw [ih]
      by_cases hrest : rest.any (fun q => q.2.cls = NodeClass.model)
      · simp [hq, hrest, Bind.bind, Except.bind]
      · simp [hq, hrest, Bind.bind, Except.bind, pure, Except.pure]

/-- C8 (amended): with a selector other than latest / prerelease / old /
none, the version search raises the descriptive user-facing error exactly
when the included parsed nodes contain at least one model; with no included
model it completes normally and yields nothing. -/
theorem c8_version_invalid_selector (E : Ext) (m : Manifest)
    (ps : Option PreviousState) (args : List String)
    (included : List String) (sel : String)
    (hsel : sel ≠ "latest" ∧ sel ≠ "prerelease" ∧ sel ≠ "old" ∧ sel ≠ "none") :
    searchMethod E .version m ps args included sel =
      (if (parsedNodes m included).any (fun q => q.2.cls = NodeClass.model) then
        .error (.dbtRuntime (versionErrMsg sel))
      else .ok []) := by
  obtain ⟨hs1, hs2, hs3, hs4⟩ := hsel
  show versionSearch E m included sel = _
  unfold versionSearch
  exact versionLoop_invalid E sel (parsedNodes m included) hs1 hs2 hs3 hs4

/-- Witness for C8's amended claim: a manifest with one included model makes
the invalid-selector search raise the descriptive error. -/
theorem c8_version_invalid_selector_witness :
    ("bogus" ≠ "latest" ∧ "bogus" ≠ "prerelease" ∧ "bogus" ≠ "old"
      ∧ "bogus" ≠ "none")
    ∧ searchMethod extDefault .version mOneModel none [] ["model.pkg.m"] "bogus" =
        (if (parsedNodes mOneModel ["model.pkg.m"]).any
            (fun q => q.2.cls = NodeClass.model) then
          .error (.dbtRuntime (versionErrMsg "bogus"))
        else .ok [])
    ∧ searchMethod extDefault .version mOneModel none [] ["model.pkg.m"] "bogus" =
        .error (.dbtRuntime (versionErrMsg "bogus")) :=
  ⟨⟨by decide, by decide, by decide, by decide⟩,
    c8_version_invalid_selector extDefault mOneModel none [] ["model.pkg.m"] "bogus"
      ⟨by decide, by decide, by decide, by decide⟩,
    by rfl⟩

/-- Keys yielded by the fqn iterator come from the non-source mappings. -/
theorem nonSourceNodes_keys_nonsource (m : Manifest) (included : List String) :
    ∀ u ∈ akeys (nonSourceNodes m included),
      u ∈ akeys (m.nodes ++ m.exposures ++ m.metrics ++ m.unitTests
        ++ m.semanticModels ++ m.savedQueries) := by
  intro u hu
  simp only [akeys, List.mem_map] at hu ⊢
  obtain ⟨q, hq, rfl⟩ := hu
  simp only [nonSourceNodes, parsedNodes, exposureNodes, metricNodes, unitTestNodes,
    semanticModelNodes, savedQueryNodes, List.mem_append] at hq
  rcases hq with ((((h | h) | h) | h) | h) | h
  · exact ⟨q, by simp [List.mem_append, (includedOf_sublist m.nodes included).subset h], rfl⟩
  · exact ⟨q, by simp [List.mem_append, (includedOf_sublist m.exposures included).subset h], rfl⟩
  · exact ⟨q, by simp [List.mem_append, (includedOf_sublist m.metrics included).subset h], rfl⟩
  · exact ⟨q, by simp [List.mem_append, (includedOf_sublist m.unitTests included).subset h], rfl⟩
  · exact ⟨q, by simp [List.mem_append, (includedOf_sublist m.semanticModels included).subset h], rfl⟩
  · exact ⟨q, by simp [List.mem_append, (includedOf_sublist m.savedQueries included).subset h], rfl⟩

/-- C10: the fqn method never yields the unique id of a source node — even
when the source's id is included and its fqn would match — because it
iterates only the non-source kinds. -/
theorem c10_fqn_never_yields_sources (E : Ext) (m : Manifest)
    (ps : Option PreviousState) (args : List String)
    (included : List String) (sel : String) (u : String)
    (hsrc : (alookup m.sources u).isSome = true)
    (hnot : u ∉ akeys (m.nodes ++ m.exposures ++ m.metrics ++ m.unitTests
      ++ m.semanticModels ++ m.savedQueries)) :
    ∀ r, searchMethod E .fqn m ps args included sel = .ok r → u ∉ r := by
  intro r h hu
  have h' : fqnSearch E m included sel = .ok r := h
  unfold fqnSearch at h'
  have hsub := yieldWhereE_ok_sublist h'
  exact hnot (nonSourceNodes_keys_nonsource m included u (hsub.subset hu))

/-- Witness for C10: a lone included source whose fqn matches the selector
is still never yielded. -/
theorem c10_fqn_never_yields_sources_witness :
    ((alookup mOneSource.sources "source.pkg.src.tbl").isSome = true)
    ∧ ("source.pkg.src.tbl" ∉ akeys (mOneSource.nodes ++ mOneSource.exposures
        ++ mOneSource.metrics ++ mOneSource.unitTests ++ mOneSource.semanticModels
        ++ mOneSource.savedQueries))
    ∧ node_is_match (fun a b => a = b) "pkg.src.tbl" ["pkg", "src", "tbl"] false
        = .ok true
    ∧ (∀ r, searchMethod extDefault .fqn mOneSource none [] ["source.pkg.src.tbl"]
        "pkg.src.tbl" = .ok r → "source.pkg.src.tbl" ∉ r) :=
  ⟨by rfl, by decide, by rfl,
    c10_fqn_never_yields_sources extDefault mOneSource none [] ["source.pkg.src.tbl"]
      "pkg.src.tbl" "source.pkg.src.tbl" (by rfl) (by decide)⟩

/-- C3 (code bug): a source whose freshness errored in the previous state
(record without max_loaded_at) but succeeded in the current state is yielded
by source_status:fresher, although the claim requires it to be excluded —
the code builds previous_state_sources_runtime_error from sources_current
instead of sources, so previous-state runtime errors never exclude
anything. -/
theorem c3_previous_runtime_error_not_excluded :
    searchMethod extDefault .sourceStatus mOneSource (some psFresh) []
      ["source.pkg.src.tbl"] "fresher" = .ok ["source.pkg.src.tbl"] := by rfl

/-- The iterator each method's search loops over (the yield source). -/
def iterListOf (mth : Method) (m : Manifest) (included : List String) :
    List (String × STarget) :=
  match mth with
  | .fqn => nonSourceNodes m included
  | .tag | .path | .file | .package | .resourceType | .state | .result
  | .sourceStatus => allNodes m included
  | .group => groupableNodes m included
  | .access | .version => parsedNodes m included
  | .source => sourceNodes m included
  | .config => configurableNodes m included
  | .testName | .testType => parsedAndUnitNodes m included
  | .exposure => exposureNodes m included
  | .metric => metricNodes m included
  | .semanticModel => semanticModelNodes m included
  | .savedQuery => savedQueryNodes m included
  | .unitTest => unitTestNodes m included

/-- Single-kind iterator keys are subsequences of the concatenated manifest
mappings' keys: exposures. -/
theorem exposureNodes_keys_sublist (m : Manifest) (included : List String) :
    List.Sublist (akeys (exposureNodes m included)) (akeys (allMappings m)) := by
  simp only [exposureNodes, allMappings, akeys, List.map_append]
  have h1 : List.Sublist (List.map Prod.fst (includedOf m.exposures included))
      (List.map Prod.fst m.nodes ++ List.map Prod.fst m.sources
        ++ List.map Prod.fst m.exposures) :=
    (includedOf_keys_sublist m.exposures included).trans
      (List.sublist_append_right
        (List.map Prod.fst m.nodes ++ List.map Prod.fst m.sources) _)
  exact sublist_ext_right _ (sublist_ext_right _ (sublist_ext_right _
    (sublist_ext_right _ h1)))

/-- Single-kind iterator keys: metrics. -/
theorem metricNodes_keys_sublist (m : Manifest) (included : List String) :
    List.Sublist (akeys (metricNodes m included)) (akeys (allMappings m)) := by
  simp only [metricNodes, allMappings, akeys, List.map_append]
  exact sublist_ext_right _ (sublist_ext_right _ (sublist_ext_right _
    ((includedOf_keys_sublist m.metrics included).trans
      (List.sublist_append_right _ _))))

/-- Single-kind iterator keys: unit tests. -/
theorem unitTestNodes_keys_sublist (m : Manifest) (included : List String) :
    List.Sublist (akeys (unitTestNodes m included)) (akeys (allMappings m)) := by
  simp only [unitTestNodes, allMappings, akeys, List.map_append]
  exact sublist_ext_right _ (sublist_ext_right _
    ((includedOf_keys_sublist m.unitTests included).trans
      (List.sublist_append_right _ _)))

/-- Single-kind iterator keys: semantic models. -/
theorem semanticModelNodes_keys_sublist (m : Manifest) (included : List String) :
    List.Sublist (akeys (semanticModelNodes m included)) (akeys (allMappings m)) := by
  simp only [semanticModelNodes, allMappings, akeys, List.map_append]
  exact sublist_ext_right _
    ((includedOf_keys_sublist m.semanticModels included).trans
      (List.sublist_append_right _ _))

/-- Single-kind iterator keys: saved queries. -/
theorem savedQueryNodes_keys_sublist (m : Manifest) (included : List String) :
    List.Sublist (akeys (savedQueryNodes m included)) (akeys (allMappings m)) := by
  simp only [savedQueryNodes, allMappings, akeys, List.map_append]
  exact (includedOf_keys_sublist m.savedQueries included).trans
    (List.sublist_append_right _ _)

/-- Every method's iterator keys are subsequences of the concatenated
manifest mappings' keys. -/
theorem iterListOf_keys_sublist (mth : Method) (m : Manifest) (included : List String) :
    List.Sublist (akeys (iterListOf mth m included)) (akeys (allMappings m)) := by
  cases mth <;>
    first
      | exact allNodes_keys_sublist m included
      | exact nonSourceNodes_keys_sublist m included
      | exact configurableNodes_keys_sublist m included
      | exact parsedAndUnitNodes_keys_sublist m included
      | exact groupableNodes_keys_sublist m included
      | exact parsedNodes_keys_sublist m included
      | exact sourceNodes_keys_sublist m included
      | exact exposureNodes_keys_sublist m included
      | exact metricNodes_keys_sublist m included
      | exact unitTestNodes_keys_sublist m included
      | exact semanticModelNodes_keys_sublist m included
      | exact savedQueryNodes_keys_sublist m included

/-- Every key of a method's iterator lies in its included set. -/
theorem iterListOf_key_included (mth : Method) (m : Manifest) (included : List String) :
    ∀ q ∈ iterListOf mth m included, (q : String × STarget).1 ∈ included := by
  cases mth <;>
    first
      | exact fun q h => allNodes_key_included h
      | exact fun q h => nonSourceNodes_key_included h
      | exact fun q h => configurableNodes_key_included h
      | exact fun q h => parsedAndUnitNodes_key_included h
      | exact fun q h => groupableNodes_key_included h
      | exact fun q h => (mem_includedOf.mp h).2

/-- A successful non-path search yields a subsequence of its iterator's
keys: each loop yields each iterated id at most once, in iteration order. -/
theorem searchMethod_ok_sublist (E : Ext) (mth : Method) (m : Manifest)
    (ps : Option PreviousState) (args : List String) (included : List String)
    (sel : String) (hmth : mth ≠ Method.path) :
    ∀ l, searchMethod E mth m ps args included sel = .ok l →
      List.Sublist l (akeys (iterListOf mth m included)) := by
  intro l h
  cases mth with
  | path => exact absurd rfl hmth
  | fqn =>
    have h' : fqnSearch E m included sel = .ok l := h
    unfold fqnSearch at h'
    exact yieldWhereE_ok_sublist h'
  | tag =>
    have h' : tagSearch E m included sel = .ok l := h
    unfold tagSearch at h'
    rw [Except.ok.injEq] at h'
    rw [← h']
    exact yieldWhere_sublist _ _
  | group =>
    have h' : groupSearch E m included sel = .ok l := h
    unfold groupSearch at h'
    exact yieldWhereE_ok_sublist h'
  | access =>
    have h' : accessSearch m included sel = .ok l := h
    unfold accessSearch at h'
    rw [Except.ok.injEq] at h'
    rw [← h']
    exact yieldWhere_sublist _ _
  | source =>
    have h' : sourceSearch E m included sel = .ok l := h
    simp only [sourceSearch] at h'
    split at h' <;>
      first
        | (rw [Except.ok.injEq] at h'; rw [← h']; exact yieldWhere_sublist _ _)
        | exact Except.noConfusion h'
  | file =>
    have h' : fileSearch E m included sel = .ok l := h
    unfold fileSearch at h'
    rw [Except.ok.injEq] at h'
    rw [← h']
    exact yieldWhere_sublist _ _
  | package =>
    have h' : packageSearch E m included sel = .ok l := h
    simp only [packageSearch] at h'
    rw [Except.ok.injEq] at h'
    rw [← h']
    exact yieldWhere_sublist _ _
  | config =>
    have h' : configSearch args m included sel = .ok l := h
    simp only [configSearch] at h'
    rw [Except.ok.injEq] at h'
    rw [← h']
    exact yieldWhere_sublist _ _
  | testName =>
    have h' : testNameSearch E m included sel = .ok l := h
    unfold testNameSearch at h'
    rw [Except.ok.injEq] at h'
    rw [← h']
    exact yieldWhere_sublist _ _
  | testType =>
    have h' : testTypeSearch m included sel = .ok l := h
    simp only [testTypeSearch] at h'
    split at h' <;>
      first
        | (rw [Except.ok.injEq] at h'; rw [← h']; exact yieldWhere_sublist _ _)
        | exact Except.noConfusion h'
  | resourceType =>
    have h' : resourceTypeSearch E m included sel = .ok l := h
    simp only [resourceTypeSearch] at h'
    split at h' <;>
      first
        | (rw [Except.ok.injEq] at h'; rw [← h']; exact yieldWhere_sublist _ _)
        | exact Except.noConfusion h'
  | state =>
    have h' : stateSearch E m ps included sel = .ok l := h
    match ps with
    | none =>
      simp only [stateSearch] at h'
      exact Except.noConfusion h'
    | some pstate =>
      simp only [stateSearch] at h'
      match hpm : pstate.manifest with
      | none =>
        simp only [hpm] at h'
        exact Except.noConfusion h'
      | some pm =>
        simp only [hpm] at h'
        match hch : stateChecker E m pm m.adapterType sel with
        | none =>
          simp only [hch] at h'
          exact Except.noConfusion h'
        | some checker =>
          simp only [hch] at h'
          obtain ⟨main, hmain, hrest⟩ := bindOk h'
          have hl : l = main := by
            by_cases hsel : sel ∈ removedPassKeys
            · rw [if_pos hsel] at hrest
              obtain ⟨_, _, hp⟩ := bindOk hrest
              simp only [pure, Except.pure, Except.ok.injEq] at hp
              exact hp.symm
            · rw [if_neg hsel] at hrest
              simp only [pure, Except.pure, Except.ok.injEq] at hrest
              exact hrest.symm
          rw [hl]
          exact yieldWhereE_ok_sublist hmain
  | result =>
    have h' : resultSearch m ps included sel = .ok l := h
    match ps with
    | none =>
      simp only [resultSearch] at h'
      exact Except.noConfusion h'
    | some pstate =>
      simp only [resultSearch] at h'
      match hrs : pstate.results with
      | none =>
        simp only [hrs] at h'
        exact Except.noConfusion h'
      | some results =>
        simp only [hrs] at h'
        rw [Except.ok.injEq] at h'
        rw [← h']
        exact yieldWhere_sublist _ _
  | sourceStatus =>
    have h' : sourceStatusSearch m ps included sel = .ok l := h
    match ps with
    | none =>
      simp only [sourceStatusSearch] at h'
      exact Except.noConfusion h'
    | some pstate =>
      simp only [sourceStatusSearch] at h'
      match hsrc2 : pstate.sources with
      | none =>
        simp only [hsrc2] at h'
        exact Except.noConfusion h'
      | some sources =>
        simp only [hsrc2] at h'
        match hcur : pstate.sourcesCurrent with
        | none =>
          simp only [hcur] at h'
          exact Except.noConfusion h'
        | some sources_current =>
          simp only [hcur] at h'
          split at h'
          · split at h'
            · obtain ⟨x, hx, _⟩ := bindOk h'
              exact Except.noConfusion hx
            · obtain ⟨ms, _, hp⟩ := bindOk h'
              simp only [pure, Except.pure, Except.ok.injEq] at hp
              rw [← hp]
              exact yieldWhere_sublist _ _
          · obtain ⟨ms, _, hp⟩ := bindOk h'
            simp only [pure, Except.pure, Except.ok.injEq] at hp
            rw [← hp]
            exact yieldWhere_sublist _ _
  | version =>
    have h' : versionSearch E m included sel = .ok l := h
    unfold versionSearch at h'
    exact yieldWhereE_ok_sublist h'
  | exposure =>
    have h' : exposureSearch E m included sel = .ok l := h
    simp only [exposureSearch, dottedNameSearch] at h'
    split at h' <;>
      first
        | (rw [Except.ok.injEq] at h'; rw [← h']; exact yieldWhere_sublist _ _)
        | exact Except.noConfusion h'
  | metric =>
    have h' : metricSearch E m included sel = .ok l := h
    simp only [metricSearch, dottedNameSearch] at h'
    split at h' <;>
      first
        | (rw [Except.ok.injEq] at h'; rw [← h']; exact yieldWhere_sublist _ _)
        | exact Except.noConfusion h'
  | semanticModel =>
    have h' : semanticModelSearch E m included sel = .ok l := h
    simp only [semanticModelSearch, dottedNameSearch] at h'
    split at h' <;>
      first
        | (rw [Except.ok.injEq] at h'; rw [← h']; exact yieldWhere_sublist _ _)
        | exact Except.noConfusion h'
  | savedQuery =>
    have h' : savedQuerySearch E m included sel = .ok l := h
    simp only [savedQuerySearch, dottedNameSearch] at h'
    split at h' <;>
      first
        | (rw [Except.ok.injEq] at h'; rw [← h']; exact yieldWhere_sublist _ _)
        | exact Except.noConfusion h'
  | unitTest =>
    have h' : unitTestSearch E m included sel = .ok l := h
    simp only [unitTestSearch, dottedNameSearch] at h'
    split at h' <;>
      first
        | (rw [Except.ok.injEq] at h'; rw [← h']; exact yieldWhere_sublist _ _)
        | exact Except.noConfusion h'

/-- C7 counterexample: a single path search yields the same id twice —
the node's file is in the expanded path set and so is an ancestor directory
— although the id appears in exactly one manifest mapping, so duplicates do
not require a violated uniqueness invariant. -/
theorem c7_counterexample :
    idsNodup mPathDup
    ∧ searchMethod extPathDup .path mPathDup none [] ["model.pkg.m"] "models"
        = .ok ["model.pkg.m", "model.pkg.m"]
    ∧ ¬(["model.pkg.m", "model.pkg.m"] : List String).Nodup :=
  ⟨by show (akeys (allMappings mPathDup)).Nodup; decide, by rfl, by decide⟩

/-- C7 (amended): every selector method except path yields each unique id at
most once per search invocation, given the invariant that an id appears in
at most one manifest mapping; the path method can yield one id up to three
times when several of its path criteria hold at once. -/
theorem c7_search_yields_each_id_at_most_once (E : Ext) (mth : Method)
    (m : Manifest) (ps : Option PreviousState) (args : List String)
    (included : List String) (sel : String)
    (hmth : mth ≠ Method.path) (hids : idsNodup m) :
    ∀ l, searchMethod E mth m ps args included sel = .ok l → l.Nodup :=
  fun l h =>
    hids.sublist ((searchMethod_ok_sublist E mth m ps args included sel hmth l h).trans
      (iterListOf_keys_sublist mth m included))

/-- Witness for C7's amended claim at the tag method on the one-model
manifest. -/
theorem c7_search_yields_each_id_at_most_once_witness :
    (Method.tag ≠ Method.path)
    ∧ idsNodup mPathDup
    ∧ (∀ l, searchMethod extDefault .tag mPathDup none [] ["model.pkg.m"] "t"
        = .ok l → l.Nodup)
    ∧ searchMethod extDefault .tag mPathDup none [] ["model.pkg.m"] "t" = .ok [] :=
  ⟨by decide, by show (akeys (allMappings mPathDup)).Nodup; decide,
    c7_search_yields_each_id_at_most_once extDefault .tag mPathDup none []
      ["model.pkg.m"] "t" (by decide)
      (by show (akeys (allMappings mPathDup)).Nodup; decide),
    by rfl⟩

/-- The visited list only grows along the traversal. -/
theorem recCheckGo_visited_subset (mcs : List (String × MacroDef))
    (modified : List String) :
    ∀ (fuel : Nat) (deps visited : List String) (b : Bool) (v : List String),
      recCheckGo mcs modified fuel deps visited = .done b v →
      ∀ x ∈ visited, x ∈ v := by
  intro fuel
  induction fuel with
  | zero =>
    intro deps visited b v h
    simp [recCheckGo] at h
  | succ fuel ih =>
    intro deps visited b v h
    match deps with
    | [] =>
      simp only [recCheckGo, TravResult.done.injEq] at h
      rw [← h.2]
      exact fun x hx => hx
    | uid :: rest =>
      rw [recCheckGo] at h
      by_cases hv : uid ∈ visited
      · rw [if_pos hv] at h
        exact ih rest visited b v h
      · rw [if_neg hv] at h
        by_cases hm : uid ∈ modified
        · rw [if_pos hm] at h
          injection h with hb hv'
          rw [← hv']
          exact fun x hx => List.mem_append_left _ hx
        · rw [if_neg hm] at h
          match hlk : alookup mcs uid with
          | none => simp only [hlk] at h; exact absurd h (by simp)
          | some mn =>
            simp only [hlk] at h
            by_cases hd : mn.dependsOnMacros.length > 0
            · rw [if_pos hd] at h
              match hrec : recCheckGo mcs modified fuel mn.dependsOnMacros
                  (visited ++ [uid]) with
              | .done true v₁ =>
                rw [hrec] at h
                injection h with hb hv'
                rw [← hv']
                intro x hx
                exact ih _ _ _ _ hrec x (List.mem_append_left _ hx)
              | .done false v₁ =>
                rw [hrec] at h
                intro x hx
                exact ih rest v₁ b v h x
                  (ih _ _ _ _ hrec x (List.mem_append_left _ hx))
              | .keyErr k => rw [hrec] at h; exact absurd h (by simp)
              | .fuelOut => rw [hrec] at h; exact absurd h (by simp)
            · rw [if_neg hd] at h
              intro x hx
              exact ih rest (visited ++ [uid]) b v h x (List.mem_append_left _ hx)

/-- The unvisited budget is antitone in the visited list. -/
theorem ssum_mono (mcs : List (String × MacroDef)) (visited visited' : List String)
    (h : ∀ x ∈ visited, x ∈ visited') : ssum mcs visited' ≤ ssum mcs visited := by
  unfold ssum
  induction mcs with
  | nil => simp
  | cons q rest ih =>
    simp only [List.map_cons, List.sum_cons]
    refine Nat.add_le_add ?_ ih
    by_cases hq : q.1 ∈ visited
    · simp [hq, h q.1 hq]
    · by_cases hq' : q.1 ∈ visited'
      · simp [hq, hq']
      · simp [hq, hq']

/-- Visiting a macro that is present in the mapping pays for its whole
dependency list and the visit itself. -/
theorem ssum_dec (mcs : List (String × MacroDef)) (visited : List String)
    (uid : String) (mn : MacroDef) (hlk : alookup mcs uid = some mn)
    (hv : uid ∉ visited) :
    ssum mcs (visited ++ [uid]) + (mn.dependsOnMacros.length + 2)
      ≤ ssum mcs visited := by
  induction mcs with
  | nil => simp [alookup] at hlk
  | cons q rest ih =>
    unfold alookup at hlk
    unfold ssum
    simp only [List.map_cons, List.sum_cons]
    by_cases hq : q.1 = uid
    · rw [if_pos hq] at hlk
      injection hlk with hmn
      have h1 : (if q.1 ∈ visited ++ [uid] then 0
          else q.2.dependsOnMacros.length + 2) = 0 := by
        simp [hq]
      have h2 : (if q.1 ∈ visited then 0 else q.2.dependsOnMacros.length + 2)
          = q.2.dependsOnMacros.length + 2 := by
        rw [if_neg (by rw [hq]; exact hv)]
      rw [h1, h2, hmn]
      have h3 := ssum_mono rest visited (visited ++ [uid])
        (fun x hx => List.mem_append_left _ hx)
      unfold ssum at h3
      omega
    · rw [if_neg hq] at hlk
      have hiff : (if q.1 ∈ visited ++ [uid] then 0
          else q.2.dependsOnMacros.length + 2)
          = (if q.1 ∈ visited then 0 else q.2.dependsOnMacros.length + 2) := by
        by_cases hqv : q.1 ∈ visited
        · simp [hqv]
        · rw [if_neg hqv, if_neg (by
            intro hcon
            rcases List.mem_append.mp hcon with hx | hx
            · exact hqv hx
            · exact hq (List.mem_singleton.mp hx))]
      rw [hiff]
      have := ih hlk
      unfold ssum at this
      omega

/-- The macro traversal never exhausts fuel at least the potential: the
shared visited list bounds the work by the size of the macros mapping. -/
theorem recCheckGo_no_fuelOut (mcs : List (String × MacroDef))
    (modified : List String) :
    ∀ (fuel : Nat) (deps visited : List String),
      travPotential mcs visited deps ≤ fuel →
      recCheckGo mcs modified fuel deps visited ≠ .fuelOut := by
  intro fuel
  induction fuel with
  | zero =>
    intro deps visited hpot
    unfold travPotential at hpot
    omega
  | succ fuel ih =>
    intro deps visited hpot
    unfold travPotential at hpot
    match deps with
    | [] => simp [recCheckGo]
    | uid :: rest =>
      rw [recCheckGo]
      by_cases hv : uid ∈ visited
      · rw [if_pos hv]
        refine ih rest visited ?_
        unfold travPotential
        simp only [List.length_cons] at hpot
        omega
      · rw [if_neg hv]
        by_cases hm : uid ∈ modified
        · simp [hm]
        · rw [if_neg hm]
          match hlk : alookup mcs uid with
          | none => simp [hlk]
          | some mn =>
            simp only [hlk]
            have hdec := ssum_dec mcs visited uid mn hlk hv
            by_cases hd : mn.dependsOnMacros.length > 0
            · rw [if_pos hd]
              have hrec1 : recCheckGo mcs modified fuel mn.dependsOnMacros
                  (visited ++ [uid]) ≠ .fuelOut := by
                refine ih _ _ ?_
                unfold travPotential
                simp only [List.length_cons] at hpot
                omega
              match hr1 : recCheckGo mcs modified fuel mn.dependsOnMacros
                  (visited ++ [uid]) with
              | .fuelOut => exact absurd hr1 hrec1
              | .keyErr k => simp [hr1]
              | .done true v₁ => simp [hr1]
              | .done false v₁ =>
                simp only [hr1]
                have hsub : ∀ x ∈ visited ++ [uid], x ∈ v₁ :=
                  recCheckGo_visited_subset mcs modified fuel _ _ _ _ hr1
                have hmono := ssum_mono mcs (visited ++ [uid]) v₁ hsub
                refine ih rest v₁ ?_
                unfold travPotential
                simp only [List.length_cons] at hpot
                omega
            · rw [if_neg hd]
              refine ih rest (visited ++ [uid]) ?_
              unfold travPotential
              simp only [List.length_cons] at hpot
              omega

/-- C9: the macro traversal terminates on every finite macros mapping,
cycles included: with fuel at least the potential — bounded by the pending
dependency list plus the sizes of the finitely many macros — the traversal
never exhausts its fuel, because the shared visited list bounds the work
and the recursion depth by the number of macros. -/
theorem c9_traversal_terminates (mcs : List (String × MacroDef))
    (modified : List String) (fuel : Nat) (deps visited : List String)
    (hpot : travPotential mcs visited deps ≤ fuel) :
    recCheckGo mcs modified fuel deps visited ≠ .fuelOut :=
  recCheckGo_no_fuelOut mcs modified fuel deps visited hpot

/-- Witness for C9 on a two-macro dependency cycle: the traversal finishes
with the visited list holding both macros. -/
theorem c9_traversal_terminates_witness :
    travPotential [("macro.pkg.a", ⟨"A", ["macro.pkg.b"]⟩),
        ("macro.pkg.b", ⟨"B", ["macro.pkg.a"]⟩)] [] ["macro.pkg.a"] ≤ 10
    ∧ recCheckGo [("macro.pkg.a", ⟨"A", ["macro.pkg.b"]⟩),
        ("macro.pkg.b", ⟨"B", ["macro.pkg.a"]⟩)] [] 10 ["macro.pkg.a"] [] ≠ .fuelOut
    ∧ recCheckGo [("macro.pkg.a", ⟨"A", ["macro.pkg.b"]⟩),
        ("macro.pkg.b", ⟨"B", ["macro.pkg.a"]⟩)] [] 10 ["macro.pkg.a"] []
        = .done false ["macro.pkg.a", "macro.pkg.b"] :=
  ⟨by decide,
    c9_traversal_terminates [("macro.pkg.a", ⟨"A", ["macro.pkg.b"]⟩),
      ("macro.pkg.b", ⟨"B", ["macro.pkg.a"]⟩)] [] 10 ["macro.pkg.a"] [] (by decide),
    by decide⟩

/-- A successful lookup pins an entry of the mapping. -/
theorem alookup_mem {α : Type} {l : List (String × α)} {k : String} {v : α}
    (h : alookup l k = some v) : (k, v) ∈ l := by
  induction l with
  | nil => simp [alookup] at h
  | cons q rest ih =>
    unfold alookup at h
    by_cases hq : q.1 = k
    · rw [if_pos hq] at h
      injection h with hv
      rw [← hq, ← hv]
      exact List.mem_cons_self q rest
    · rw [if_neg hq] at h
      exact List.mem_cons_of_mem _ (ih h)

/-- Lookup succeeds on every key of the mapping. -/
theorem alookup_isSome_of_mem_keys {α : Type} {l : List (String × α)} {k : String}
    (h : k ∈ akeys l) : (alookup l k).isSome = true := by
  induction l with
  | nil => simp [akeys] at h
  | cons q rest ih =>
    unfold alookup
    by_cases hq : q.1 = k
    · rw [if_pos hq]; rfl
    · rw [if_neg hq]
      refine ih ?_
      simp only [akeys, List.map_cons, List.mem_cons] at h
      rcases h with h | h
      · exact absurd h.symm hq
      · exact h

/-- With pairwise-distinct keys, an entry of the mapping is what lookup
finds. -/
theorem alookup_of_mem_nodup {α : Type} {l : List (String × α)} {k : String} {v : α}
    (hnd : (akeys l).Nodup) (h : (k, v) ∈ l) : alookup l k = some v := by
  induction l with
  | nil => simp at h
  | cons q rest ih =>
    obtain ⟨qk, qv⟩ := q
    simp only [akeys, List.map_cons, List.nodup_cons] at hnd
    unfold alookup
    rcases List.mem_cons.mp h with heq | hrest
    · injection heq with h1 h2
      rw [if_pos h1.symm, ← h2]
    · have hk : qk ≠ k := by
        intro hq
        exact hnd.1 (hq ▸ List.mem_map.mpr ⟨(k, v), hrest, rfl⟩)
      rw [if_neg hk]
      exact ih hnd.2 hrest

/-- Reachability only grows when the start list grows. -/
theorem ReachableFrom_mono {mcs : List (String × MacroDef)} {deps deps' : List String}
    (hsub : ∀ d ∈ deps, d ∈ deps') {u : String}
    (h : ReachableFrom mcs deps u) : ReachableFrom mcs deps' u := by
  induction h with
  | start w hw => exact ReachableFrom.start w (hsub w hw)
  | step v w mc _ hlk hmem ih => exact ReachableFrom.step v w mc ih hlk hmem

/-- Reachability from a macro's dependency list lifts to any list containing
that macro. -/
theorem ReachableFrom_through {mcs : List (String × MacroDef)} {deps : List String}
    {uid : String} {mn : MacroDef} (huid : uid ∈ deps)
    (hlk : alookup mcs uid = some mn) {w : String}
    (h : ReachableFrom mcs mn.dependsOnMacros w) : ReachableFrom mcs deps w := by
  induction h with
  | start x hx => exact ReachableFrom.step uid x mn (ReachableFrom.start uid huid) hlk hx
  | step v x mc _ hlk' hmem ih => exact ReachableFrom.step v x mc ih hlk' hmem

/-- Soundness of the traversal: a true verdict exhibits a modified macro
reachable from the dependency list. -/
theorem recCheckGo_sound (mcs : List (String × MacroDef)) (modified : List String) :
    ∀ (fuel : Nat) (deps visited : List String) (v : List String),
      recCheckGo mcs modified fuel deps visited = .done true v →
      ∃ u, u ∈ modified ∧ ReachableFrom mcs deps u := by
  intro fuel
  induction fuel with
  | zero =>
    intro deps visited v h
    simp [recCheckGo] at h
  | succ fuel ih =>
    intro deps visited v h
    match deps with
    | [] =>
      simp only [recCheckGo, TravResult.done.injEq] at h
      exact absurd h.1 (by simp)
    | uid :: rest =>
      rw [recCheckGo] at h
      by_cases hv : uid ∈ visited
      · rw [if_pos hv] at h
        obtain ⟨u, hu, hr⟩ := ih rest visited v h
        exact ⟨u, hu, ReachableFrom_mono (fun d hd => List.mem_cons_of_mem _ hd) hr⟩
      · rw [if_neg hv] at h
        by_cases hm : uid ∈ modified
        · exact ⟨uid, hm, ReachableFrom.start uid (List.mem_cons_self uid rest)⟩
        · rw [if_neg hm] at h
          match hlk : alookup mcs uid with
          | none => simp only [hlk] at h; exact absurd h (by simp)
          | some mn =>
            simp only [hlk] at h
            by_cases hd : mn.dependsOnMacros.length > 0
            · rw [if_pos hd] at h
              match hr1 : recCheckGo mcs modified fuel mn.dependsOnMacros
                  (visited ++ [uid]) with
              | .done true v₁ =>
                obtain ⟨u, hu, hr⟩ := ih _ _ _ hr1
                exact ⟨u, hu,
                  ReachableFrom_through (List.mem_cons_self uid rest) hlk hr⟩
              | .done false v₁ =>
                rw [hr1] at h
                obtain ⟨u, hu, hr⟩ := ih rest v₁ v h
                exact ⟨u, hu,
                  ReachableFrom_mono (fun d hd => List.mem_cons_of_mem _ hd) hr⟩
              | .keyErr k => rw [hr1] at h; exact absurd h (by simp)
              | .fuelOut => rw [hr1] at h; exact absurd h (by simp)
            · rw [if_neg hd] at h
              obtain ⟨u, hu, hr⟩ := ih rest (visited ++ [uid]) v h
              exact ⟨u, hu, ReachableFrom_mono (fun d hd => List.mem_cons_of_mem _ hd) hr⟩

/-- Completeness invariant of a false verdict: the final visited list covers
the dependency list, and every newly visited id is unmodified with all its
macro dependencies also visited. -/
theorem recCheckGo_complete (mcs : List (String × MacroDef)) (modified : List String) :
    ∀ (fuel : Nat) (deps visited : List String) (v : List String),
      recCheckGo mcs modified fuel deps visited = .done false v →
      (∀ d ∈ deps, d ∈ v)
        ∧ (∀ u ∈ v, u ∉ visited →
            u ∉ modified ∧ ∀ mn, alookup mcs u = some mn →
              ∀ w ∈ mn.dependsOnMacros, w ∈ v) := by
  intro fuel
  induction fuel with
  | zero =>
    intro deps visited v h
    simp [recCheckGo] at h
  | succ fuel ih =>
    intro deps visited v h
    match deps with
    | [] =>
      simp only [recCheckGo, TravResult.done.injEq] at h
      constructor
      · intro d hd; simp at hd
      · intro u hu hunv
        rw [← h.2] at hu
        exact absurd hu hunv
    | uid :: rest =>
      rw [recCheckGo] at h
      by_cases hv : uid ∈ visited
      · rw [if_pos hv] at h
        obtain ⟨h1, h2⟩ := ih rest visited v h
        have huid : uid ∈ v :=
          recCheckGo_visited_subset mcs modified fuel rest visited false v h uid hv
        constructor
        · intro d hd
          rcases List.mem_cons.mp hd with hd | hd
          · rw [hd]; exact huid
          · exact h1 d hd
        · exact h2
      · rw [if_neg hv] at h
        by_cases hm : uid ∈ modified
        · rw [if_pos hm] at h
          exact absurd h (by simp)
        · rw [if_neg hm] at h
          match hlk : alookup mcs uid with
          | none => simp only [hlk] at h; exact absurd h (by simp)
          | some mn =>
            simp only [hlk] at h
            by_cases hd : mn.dependsOnMacros.length > 0
            · rw [if_pos hd] at h
              match hr1 : recCheckGo mcs modified fuel mn.dependsOnMacros
                  (visited ++ [uid]) with
              | .done true v₁ => rw [hr1] at h; exact absurd h (by simp)
              | .keyErr k => rw [hr1] at h; exact absurd h (by simp)
              | .fuelOut => rw [hr1] at h; exact absurd h (by simp)
              | .done false v₁ =>
                rw [hr1] at h
                obtain ⟨hd1, hc1⟩ := ih _ _ _ hr1
                obtain ⟨hd2, hc2⟩ := ih rest v₁ v h
                have hv1v : ∀ x ∈ v₁, x ∈ v :=
                  recCheckGo_visited_subset mcs modified fuel rest v₁ false v h
                have hvuidv1 : ∀ x ∈ visited ++ [uid], x ∈ v₁ :=
                  recCheckGo_visited_subset mcs modified fuel _ _ _ _ hr1
                have huidv : uid ∈ v :=
                  hv1v uid (hvuidv1 uid (List.mem_append_right _ (List.mem_singleton_self uid)))
                constructor
                · intro d hdm
                  rcases List.mem_cons.mp hdm with hdm | hdm
                  · rw [hdm]; exact huidv
                  · exact hd2 d hdm
                · intro x hx hxnv
                  by_cases hxu : x = uid
                  · subst hxu
                    refine ⟨hm, ?_⟩
                    intro mn' hmn' w hw
                    rw [hlk] at hmn'
                    injection hmn' with hmn'
                    rw [← hmn'] at hw
                    exact hv1v w (hd1 w hw)
                  · by_cases hxv1 : x ∈ v₁
                    · have hxnv1 : x ∉ visited ++ [uid] := by
                        intro hcon
                        rcases List.mem_append.mp hcon with hc | hc
                        · exact hxnv hc
                        · exact hxu (List.mem_singleton.mp hc)
                      obtain ⟨ha, hb⟩ := hc1 x hxv1 hxnv1
                      exact ⟨ha, fun mn' hmn' w hw => hv1v w (hb mn' hmn' w hw)⟩
                    · exact hc2 x hx hxv1
            · rw [if_neg hd] at h
              obtain ⟨hd2, hc2⟩ := ih rest (visited ++ [uid]) v h
              have hvv : ∀ x ∈ visited ++ [uid], x ∈ v :=
                recCheckGo_visited_subset mcs modified fuel rest _ false v h
              have huidv : uid ∈ v :=
                hvv uid (List.mem_append_right _ (List.mem_singleton_self uid))
              constructor
              · intro d hdm
                rcases List.mem_cons.mp hdm with hdm | hdm
                · rw [hdm]; exact huidv
                · exact hd2 d hdm
              · intro x hx hxnv
                by_cases hxu : x = uid
                · subst hxu
                  refine ⟨hm, ?_⟩
                  intro mn' hmn' w hw
                  rw [hlk] at hmn'
                  injection hmn' with hmn'
                  rw [← hmn'] at hw
                  have : mn.dependsOnMacros = [] := List.length_eq_zero.mp (by omega)
                  rw [this] at hw
                  simp at hw
                · have hxnv1 : x ∉ visited ++ [uid] := by
                    intro hcon
                    rcases List.mem_append.mp hcon with hc | hc
                    · exact hxnv hc
                    · exact hxu (List.mem_singleton.mp hc)
                  exact hc2 x hx hxnv1

/-- Everything reachable from a dependency list lies inside a closed visited
set disjoint from the modified list. -/
theorem reach_in_closed (mcs : List (String × MacroDef)) (modified : List String)
    (deps v : List String)
    (hdeps : ∀ d ∈ deps, d ∈ v)
    (hcl : ∀ u ∈ v, u ∉ modified ∧ ∀ mn, alookup mcs u = some mn →
      ∀ w ∈ mn.dependsOnMacros, w ∈ v) :
    ∀ u, ReachableFrom mcs deps u → u ∈ v ∧ u ∉ modified := by
  intro u h
  induction h with
  | start w hw => exact ⟨hdeps w hw, (hcl w (hdeps w hw)).1⟩
  | step x w mc hr hlk hmem ih =>
    have hw : w ∈ v := (hcl x ih.1).2 mc hlk w hmem
    exact ⟨hw, (hcl w hw).1⟩

/-- Under the dependency-closure invariant, the traversal never raises
KeyError. -/
theorem recCheckGo_no_keyErr (mcs : List (String × MacroDef)) (modified : List String)
    (hmcs : ∀ q ∈ mcs, ∀ d ∈ (q : String × MacroDef).2.dependsOnMacros,
      (alookup mcs d).isSome = true) :
    ∀ (fuel : Nat) (deps visited : List String),
      (∀ d ∈ deps, (alookup mcs d).isSome = true) →
      ∀ k, recCheckGo mcs modified fuel deps visited ≠ .keyErr k := by
  intro fuel
  induction fuel with
  | zero =>
    intro deps visited _ k
    simp [recCheckGo]
  | succ fuel ih =>
    intro deps visited hdeps k
    match deps with
    | [] => simp [recCheckGo]
    | uid :: rest =>
      rw [recCheckGo]
      by_cases hv : uid ∈ visited
      · rw [if_pos hv]
        exact ih rest visited (fun d hd => hdeps d (List.mem_cons_of_mem _ hd)) k
      · rw [if_neg hv]
        by_cases hm : uid ∈ modified
        · simp [hm]
        · rw [if_neg hm]
          match hlk : alookup mcs uid with
          | none =>
            have := hdeps uid (List.mem_cons_self uid rest)
            rw [hlk] at this
            simp at this
          | some mn =>
            simp only [hlk]
            have hmn : ∀ d ∈ mn.dependsOnMacros, (alookup mcs d).isSome = true :=
              hmcs (uid, mn) (alookup_mem hlk)
            by_cases hd : mn.dependsOnMacros.length > 0
            · rw [if_pos hd]
              match hr1 : recCheckGo mcs modified fuel mn.dependsOnMacros
                  (visited ++ [uid]) with
              | .done true v₁ => simp
              | .done false v₁ =>
                exact ih rest v₁ (fun d hdm => hdeps d (List.mem_cons_of_mem _ hdm)) k
              | .keyErr k' => exact absurd hr1 (ih mn.dependsOnMacros _ hmn k')
              | .fuelOut => simp
            · rw [if_neg hd]
              exact ih rest (visited ++ [uid])
                (fun d hdm => hdeps d (List.mem_cons_of_mem _ hdm)) k

/-- Membership in the _macros_modified list coincides with the claim's
reading of a modified macro, when the current macros mapping has distinct
keys. -/
theorem macrosModifiedList_iff (old_macros new_macros : List (String × MacroDef))
    (hnd : (akeys new_macros).Nodup) (u : String) :
    u ∈ macrosModifiedList old_macros new_macros
      ↔ IsModifiedMacro old_macros new_macros u := by
  unfold macrosModifiedList IsModifiedMacro
  rw [List.mem_append, List.mem_filterMap, List.mem_filterMap]
  constructor
  · rintro (⟨q, hq, hcond⟩ | ⟨q, hq, hcond⟩)
    · have hlk : alookup new_macros q.1 = some q.2 :=
        alookup_of_mem_nodup hnd (by obtain ⟨a, b⟩ := q; exact hq)
      match holk : alookup old_macros q.1 with
      | some om =>
        simp only [holk] at hcond
        by_cases hsql : q.2.macroSql ≠ om.macroSql
        · rw [if_pos hsql] at hcond
          injection hcond with hcond
          rw [← hcond]
          simp only [hlk, holk]
          exact hsql
        · rw [if_neg hsql] at hcond
          exact absurd hcond (by simp)
      | none =>
        simp only [holk] at hcond
        injection hcond with hcond
        rw [← hcond]
        simp only [hlk, holk]
    · have hsome : (alookup new_macros q.1).isNone = true := by
        by_cases hn : (alookup new_macros q.1).isNone
        · exact hn
        · rw [if_neg hn] at hcond
          exact absurd hcond (by simp)
      rw [if_pos hsome] at hcond
      injection hcond with hcond
      rw [← hcond]
      rw [Option.isNone_iff_eq_none] at hsome
      have hk := alookup_isSome_of_mem_keys
        (l := old_macros) (k := q.1) (List.mem_map.mpr ⟨q, hq, rfl⟩)
      simp only [hsome]
      match holk : alookup old_macros q.1 with
      | some om => simp [holk]
      | none => rw [holk] at hk; simp at hk
  · intro h
    match hnew : alookup new_macros u with
    | some nm =>
      match hold : alookup old_macros u with
      | some om =>
        simp only [hnew, hold] at h
        left
        refine ⟨(u, nm), alookup_mem hnew, ?_⟩
        simp only [hold]
        rw [if_pos h]
      | none =>
        left
        refine ⟨(u, nm), alookup_mem hnew, ?_⟩
        simp only [hold]
    | none =>
      match hold : alookup old_macros u with
      | some om =>
        right
        refine ⟨(u, om), alookup_mem hold, ?_⟩
        simp [hnew]
      | none =>
        simp only [hnew, hold] at h

/-- check_macros_modified evaluates without exception and answers exactly
whether a modified macro is reachable from the node's depends_on.macros,
under distinct current macro keys and the dependency-closure invariant. -/
theorem checkMacrosModified_iff (cur pm : Manifest) (node : STarget)
    (deps : List String) (hdeps : node.dependsOnMacros = some deps)
    (hndm : (akeys cur.macros).Nodup)
    (hcl1 : ∀ d ∈ deps, (alookup cur.macros d).isSome = true)
    (hcl2 : ∀ q ∈ cur.macros, ∀ d ∈ (q : String × MacroDef).2.dependsOnMacros,
      (alookup cur.macros d).isSome = true) :
    ∃ b, checkMacrosModified cur pm (some node) = .ok b
      ∧ (b = true ↔ ∃ u, ReachableFrom cur.macros deps u
          ∧ IsModifiedMacro pm.macros cur.macros u) := by
  have hunfold : checkMacrosModified cur pm (some node)
      = (if (macrosModifiedList pm.macros cur.macros).isEmpty then .ok false
        else recursivelyCheckMacrosModified cur.macros
          (macrosModifiedList pm.macros cur.macros) deps) := by
    unfold checkMacrosModified
    simp only [hdeps]
  rw [hunfold]
  by_cases hmod : (macrosModifiedList pm.macros cur.macros).isEmpty
  · refine ⟨false, by rw [if_pos hmod], ?_⟩
    refine iff_of_false (by simp) ?_
    rintro ⟨u, _, him⟩
    have hu := (macrosModifiedList_iff pm.macros cur.macros hndm u).mpr him
    rw [List.isEmpty_iff] at hmod
    rw [hmod] at hu
    simp at hu
  · rw [if_neg hmod]
    unfold recursivelyCheckMacrosModified
    match hr : recCheckGo cur.macros (macrosModifiedList pm.macros cur.macros)
        (travPotential cur.macros [] deps) deps [] with
    | .fuelOut =>
      exact absurd hr (recCheckGo_no_fuelOut _ _ _ _ _ (Nat.le_refl _))
    | .keyErr k =>
      exact absurd hr (recCheckGo_no_keyErr _ _ hcl2 _ _ _ hcl1 k)
    | .done true v =>
      refine ⟨true, rfl, iff_of_true rfl ?_⟩
      obtain ⟨u, hu, hreach⟩ := recCheckGo_sound _ _ _ _ _ _ hr
      exact ⟨u, hreach, (macrosModifiedList_iff pm.macros cur.macros hndm u).mp hu⟩
    | .done false v =>
      refine ⟨false, rfl, iff_of_false (by simp) ?_⟩
      rintro ⟨u, hreach, him⟩
      obtain ⟨hcov, hcl⟩ := recCheckGo_complete _ _ _ _ _ _ hr
      have hin := reach_in_closed cur.macros (macrosModifiedList pm.macros cur.macros)
        deps v hcov (fun x hx => by
          have := hcl x hx (by simp)
          exact this) u hreach
      exact hin.2 ((macrosModifiedList_iff pm.macros cur.macros hndm u).mpr him)

/-- check_macros_modified never raises under the dependency-closure
invariant. -/
theorem checkMacrosModified_total (cur pm : Manifest) (n? : Option STarget)
    (hcl2 : ∀ q ∈ cur.macros, ∀ d ∈ (q : String × MacroDef).2.dependsOnMacros,
      (alookup cur.macros d).isSome = true)
    (hn : ∀ node deps, n? = some node → node.dependsOnMacros = some deps →
      ∀ d ∈ deps, (alookup cur.macros d).isSome = true) :
    ∃ b, checkMacrosModified cur pm n? = .ok b := by
  match n? with
  | none =>
    refine ⟨false, ?_⟩
    unfold checkMacrosModified
    by_cases hmod : (macrosModifiedList pm.macros cur.macros).isEmpty
    · rw [if_pos hmod]
    · rw [if_neg hmod]
  | some node =>
    match hdeps : node.dependsOnMacros with
    | none =>
      refine ⟨false, ?_⟩
      unfold checkMacrosModified
      simp only [hdeps]
      by_cases hmod : (macrosModifiedList pm.macros cur.macros).isEmpty
      · rw [if_pos hmod]
      · rw [if_neg hmod]
    | some deps =>
      have hunfold : checkMacrosModified cur pm (some node)
          = (if (macrosModifiedList pm.macros cur.macros).isEmpty then .ok false
            else recursivelyCheckMacrosModified cur.macros
              (macrosModifiedList pm.macros cur.macros) deps) := by
        unfold checkMacrosModified
        simp only [hdeps]
      rw [hunfold]
      by_cases hmod : (macrosModifiedList pm.macros cur.macros).isEmpty
      · exact ⟨false, by rw [if_pos hmod]⟩
      · rw [if_neg hmod]
        unfold recursivelyCheckMacrosModified
        match hr : recCheckGo cur.macros (macrosModifiedList pm.macros cur.macros)
            (travPotential cur.macros [] deps) deps [] with
        | .fuelOut =>
          exact absurd hr (recCheckGo_no_fuelOut _ _ _ _ _ (Nat.le_refl _))
        | .keyErr k =>
          exact absurd hr
            (recCheckGo_no_keyErr _ _ hcl2 _ _ _ (hn node deps rfl hdeps) k)
        | .done b v => exact ⟨b, rfl⟩

/-- A loop whose body never raises produces a result list. -/
theorem yieldWhereE_total {l : List (String × STarget)}
    {p : String → STarget → Except PyErr Bool}
    (h : ∀ q ∈ l, ∃ b, p q.1 q.2 = .ok b) :
    ∃ r, yieldWhereE l p = .ok r := by
  induction l with
  | nil => exact ⟨[], rfl⟩
  | cons q rest ih =>
    obtain ⟨b, hb⟩ := h q (List.mem_cons_self q rest)
    obtain ⟨r, hr⟩ := ih (fun q' hq' => h q' (List.mem_cons_of_mem _ hq'))
    refine ⟨if b then q.1 :: r else r, ?_⟩
    unfold yieldWhereE
    rw [hb, hr]
    rfl

/-- Candidates of all_nodes are entries of the concatenated mappings. -/
theorem mem_allMappings_of_mem_allNodes {m : Manifest} {included : List String}
    {q : String × STarget} (h : q ∈ allNodes m included) : q ∈ allMappings m := by
  simp only [allNodes, parsedNodes, sourceNodes, exposureNodes, metricNodes,
    unitTestNodes, semanticModelNodes, savedQueryNodes, List.mem_append] at h
  simp only [allMappings, List.mem_append]
  rcases h with ((((((h | h) | h) | h) | h) | h) | h)
  · exact Or.inl (Or.inl (Or.inl (Or.inl (Or.inl (Or.inl
      ((includedOf_sublist _ _).subset h))))))
  · exact Or.inl (Or.inl (Or.inl (Or.inl (Or.inl (Or.inr
      ((includedOf_sublist _ _).subset h))))))
  · exact Or.inl (Or.inl (Or.inl (Or.inl (Or.inr
      ((includedOf_sublist _ _).subset h)))))
  · exact Or.inl (Or.inl (Or.inl (Or.inr ((includedOf_sublist _ _).subset h))))
  · exact Or.inl (Or.inl (Or.inr ((includedOf_sublist _ _).subset h)))
  · exact Or.inl (Or.inr ((includedOf_sublist _ _).subset h))
  · exact Or.inr ((includedOf_sublist _ _).subset h)

/-- C2: with both manifests' depends_on.macros referring only to macros of
the current mapping, the state search for "modified.macros" yields a
candidate node exactly when some macro id reachable from the node's
depends_on.macros — transitively through the current manifest's macro graph
— is modified: its macro_sql differs between the manifests or it was added
or removed. -/
theorem c2_modified_macros_reachability (E : Ext) (m : Manifest)
    (pstate : PreviousState) (pm : Manifest) (included : List String)
    (u : String) (node : STarget) (deps : List String)
    (hps : pstate.manifest = some pm)
    (hnd : (akeys (allMappings m)).Nodup)
    (hndm : (akeys m.macros).Nodup)
    (hmem : (u, node) ∈ allNodes m included)
    (hdeps : node.dependsOnMacros = some deps)
    (hclnodes : ∀ q ∈ allMappings m, ∀ ds,
      (q : String × STarget).2.dependsOnMacros = some ds →
      ∀ d ∈ ds, (alookup m.macros d).isSome = true)
    (hclmacros : ∀ q ∈ m.macros, ∀ d ∈ (q : String × MacroDef).2.dependsOnMacros,
      (alookup m.macros d).isSome = true) :
    ∃ r, stateSearch E m (some pstate) included "modified.macros" = .ok r
      ∧ (u ∈ r ↔ ∃ mu, ReachableFrom m.macros deps mu
          ∧ IsModifiedMacro pm.macros m.macros mu) := by
  have hch : stateChecker E m pm m.adapterType "modified.macros"
      = some (fun _ new => checkMacrosModified m pm new) := by rfl
  have htot : ∀ q ∈ allNodes m included, ∃ b,
      checkMacrosModified m pm (some q.2) = .ok b := by
    intro q hq
    exact checkMacrosModified_total m pm (some q.2) hclmacros
      (fun n ds hn hds => by
        injection hn with hn
        exact hclnodes q (mem_allMappings_of_mem_allNodes hq) ds (hn ▸ hds))
  obtain ⟨r, hr⟩ := yieldWhereE_total
    (p := fun unique_id n =>
      (fun (_ : Option STarget) new => checkMacrosModified m pm new)
        (previousNode pm unique_id) (some n))
    (fun q hq => htot q hq)
  refine ⟨r, ?_, ?_⟩
  · simp only [stateSearch, hps, hch]
    rw [hr]
    have hnot : "modified.macros" ∉ removedPassKeys := by decide
    simp only [Bind.bind, Except.bind, if_neg hnot]
    rfl
  · have hsubkeys : (akeys (allNodes m included)).Nodup :=
      hnd.sublist (allNodes_keys_sublist m included)
    have hiff := yieldWhereE_mem_iff hr hsubkeys hmem
    obtain ⟨b, hb, hbiff⟩ := checkMacrosModified_iff m pm node deps hdeps hndm
      (fun d hd => hclnodes (u, node) (mem_allMappings_of_mem_allNodes hmem)
        deps hdeps d hd)
      hclmacros
    rw [hiff]
    show checkMacrosModified m pm (some node) = Except.ok true ↔ _
    rw [hb]
    constructor
    · intro h
      injection h with h
      exact hbiff.mp h
    · intro h
      rw [hbiff.mpr h]

/-- Witness for C2 at the spec's scenario 5: macro a's sql changed from X
to Y, macro b depends on a, model m depends on b; state:modified.macros
selects m. -/
theorem c2_modified_macros_reachability_witness :
    (psMacros.manifest = some pmMacros)
    ∧ (∃ r, stateSearch extDefault mMacros (some psMacros) ["model.pkg.m"]
        "modified.macros" = .ok r
        ∧ ("model.pkg.m" ∈ r ↔ ∃ mu, ReachableFrom mMacros.macros ["macro.pkg.b"] mu
            ∧ IsModifiedMacro pmMacros.macros mMacros.macros mu))
    ∧ stateSearch extDefault mMacros (some psMacros) ["model.pkg.m"]
        "modified.macros" = .ok ["model.pkg.m"] := by
  refine ⟨rfl, ?_, by rfl⟩
  refine c2_modified_macros_reachability extDefault mMacros psMacros pmMacros
    ["model.pkg.m"] "model.pkg.m" nodeM ["macro.pkg.b"] rfl (by decide) (by decide)
    ?_ rfl ?_ (by decide)
  · rw [show allNodes mMacros ["model.pkg.m"] = [("model.pkg.m", nodeM)] from rfl]
    exact List.mem_singleton_self _
  · intro q hq ds hds d hd
    rw [show allMappings mMacros = [("model.pkg.m", nodeM)] from rfl] at hq
    rw [List.mem_singleton] at hq
    subst hq
    have h2 : some ["macro.pkg.b"] = some ds := hds
    injection h2 with h2
    rw [← h2] at hd
    rw [List.mem_singleton] at hd
    subst hd
    rfl

/-- With pairwise-distinct keys, one key holds one node. -/
theorem nodup_key_eq {l : List (String × STarget)} (hnd : (akeys l).Nodup)
    {u : String} {a b : STarget} (ha : (u, a) ∈ l) (hb : (u, b) ∈ l) : a = b := by
  have h1 := alookup_of_mem_nodup hnd ha
  have h2 := alookup_of_mem_nodup hnd hb
  rw [h1] at h2
  exact Option.some.inj h2

/-- Membership of a specific non-repeated candidate in a yieldWhere run. -/
theorem yieldWhere_mem_iff {l : List (String × STarget)} {p : String → STarget → Bool}
    {u : String} {n : STarget} (hnd : (akeys l).Nodup) (hmem : (u, n) ∈ l) :
    u ∈ yieldWhere l p ↔ p u n = true := by
  rw [mem_yieldWhere]
  constructor
  · rintro ⟨n', hm', hp⟩
    rwa [nodup_key_eq hnd hm' hmem] at hp
  · intro hp
    exact ⟨n, hmem, hp⟩

/-- C4: for a configurable candidate whose config resolves along the dotted
arguments path to a non-sequence value, config search yields the node
exactly when the selector equals the value (case-insensitively when
arguments == ["severity"]), or the selector case-folds to "true" and the
value is boolean true, or to "false" and the value is boolean false. -/
theorem c4_config_scalar_rule (arguments : List String) (m : Manifest)
    (included : List String) (sel : String) (u : String) (n : STarget) (v : Value)
    (hmem : (u, n) ∈ configurableNodes m included)
    (hnd : (akeys (configurableNodes m included)).Nodup)
    (hres : getattrDescend n.config arguments = some v)
    (hscalar : ∀ l, v ≠ Value.vList l) :
    ∀ r, configSearch arguments m included sel = .ok r →
      (u ∈ r ↔
        ((if arguments = ["severity"]
            then ∃ s, v = Value.vStr s ∧ pyUpper sel = pyUpper s
            else ∃ s, v = Value.vStr s ∧ sel = s)
          ∨ (pyUpper sel = "TRUE" ∧ v = Value.vBool true)
          ∨ (pyUpper sel = "FALSE" ∧ v = Value.vBool false))) := by
  intro r h
  simp only [configSearch, Except.ok.injEq] at h
  rw [← h, yieldWhere_mem_iff hnd hmem]
  simp only [hres]
  cases v with
  | vList l => exact absurd rfl (hscalar l)
  | vStr s =>
    by_cases harg : arguments = ["severity"] <;>
      simp [harg, selectorEqValue, isBoolTrue, isBoolFalse]
  | vBool b =>
    cases b <;> by_cases harg : arguments = ["severity"] <;>
      simp [harg, selectorEqValue, isBoolTrue, isBoolFalse]
  | vInt i =>
    by_cases harg : arguments = ["severity"] <;>
      simp [harg, selectorEqValue, isBoolTrue, isBoolFalse]
  | vNone =>
    by_cases harg : arguments = ["severity"] <;>
      simp [harg, selectorEqValue, isBoolTrue, isBoolFalse]
  | vDict d =>
    by_cases harg : arguments = ["severity"] <;>
      simp [harg, selectorEqValue, isBoolTrue, isBoolFalse]

/-- Witness for C4 at the spec's scenario 3: config severity WARN,
arguments ["severity"], selector "warn" matches case-insensitively. -/
theorem c4_config_scalar_rule_witness :
    (("model.pkg.m", nodeSev) ∈ configurableNodes mSeverity ["model.pkg.m"])
    ∧ (akeys (configurableNodes mSeverity ["model.pkg.m"])).Nodup
    ∧ getattrDescend nodeSev.config ["severity"] = some (Value.vStr "WARN")
    ∧ (∀ r, configSearch ["severity"] mSeverity ["model.pkg.m"] "warn" = .ok r →
        ("model.pkg.m" ∈ r ↔
          ((if ["severity"] = ["severity"]
              then ∃ s, Value.vStr "WARN" = Value.vStr s
                ∧ pyUpper "warn" = pyUpper s
              else ∃ s, Value.vStr "WARN" = Value.vStr s ∧ "warn" = s)
            ∨ (pyUpper "warn" = "TRUE" ∧ Value.vStr "WARN" = Value.vBool true)
            ∨ (pyUpper "warn" = "FALSE" ∧ Value.vStr "WARN" = Value.vBool false))))
    ∧ configSearch ["severity"] mSeverity ["model.pkg.m"] "warn"
        = .ok ["model.pkg.m"] := by
  refine ⟨?_, by decide, rfl, ?_, by rfl⟩
  · rw [show configurableNodes mSeverity ["model.pkg.m"]
      = [("model.pkg.m", nodeSev)] from rfl]
    exact List.mem_singleton_self _
  · refine c4_config_scalar_rule ["severity"] mSeverity ["model.pkg.m"] "warn"
      "model.pkg.m" nodeSev (Value.vStr "WARN") ?_ (by decide) rfl
      (fun l h => Value.noConfusion h)
    rw [show configurableNodes mSeverity ["model.pkg.m"]
      = [("model.pkg.m", nodeSev)] from rfl]
    exact List.mem_singleton_self _

/-- Membership in a conditional singleton. -/
theorem mem_ite_singleton {c : Prop} [Decidable c] {u x : String}
    (h : x ∈ (if c then [u] else [])) : x = u := by
  split at h
  · exact List.mem_singleton.mp h
  · simp at h

/-- Each path-loop body yields only the iterated id. -/
theorem pathNodeYields_only_self (paths : List (List String)) (u : String)
    (node : STarget) :
    ∀ ys, pathNodeYields paths u node = .ok ys → ∀ x ∈ ys, x = u := by
  intro ys h x hx
  unfold pathNodeYields at h
  split at h
  · split at h
    · split at h
      · injection h with h
        rw [← h] at hx
        simp only [List.mem_append] at hx
        rcases hx with (hx | hx) | hx
        · exact mem_ite_singleton hx
        · exact mem_ite_singleton hx
        · exact mem_ite_singleton hx
      · exact absurd h (by simp)
    · injection h with h
      rw [← h] at hx
      simp only [List.mem_append] at hx
      rcases hx with (hx | hx) | hx
      · exact mem_ite_singleton hx
      · simp at hx
      · exact mem_ite_singleton hx
  · injection h with h
    rw [← h] at hx
    simp only [List.mem_append] at hx
    rcases hx with (hx | hx) | hx
    · exact mem_ite_singleton hx
    · simp at hx
    · exact mem_ite_singleton hx

/-- Members of a yieldManyE run come from the iterated keys when each body
yields only its own id. -/
theorem yieldManyE_mem {l : List (String × STarget)}
    {p : String → STarget → Except PyErr (List String)} {r : List String}
    (h : yieldManyE l p = .ok r)
    (hself : ∀ q ∈ l, ∀ ys, p q.1 q.2 = .ok ys → ∀ x ∈ ys, x = q.1) :
    ∀ x ∈ r, ∃ q ∈ l, x = q.1 := by
  induction l generalizing r with
  | nil =>
    simp only [yieldManyE] at h
    injection h with h
    rw [← h]
    intro x hx
    simp at hx
  | cons q rest ih =>
    unfold yieldManyE at h
    obtain ⟨ys, hys, h2⟩ := bindOk h
    obtain ⟨r', hr', h3⟩ := bindOk h2
    simp only [pure, Except.pure, Except.ok.injEq] at h3
    rw [← h3]
    intro x hx
    rcases List.mem_append.mp hx with hx | hx
    · exact ⟨q, List.mem_cons_self q rest,
        hself q (List.mem_cons_self q rest) ys hys x hx⟩
    · obtain ⟨q', hq', hxq⟩ := ih hr'
        (fun q' hq' => hself q' (List.mem_cons_of_mem _ hq')) x hx
      exact ⟨q', List.mem_cons_of_mem _ hq', hxq⟩

/-- Every successful search yields only ids of the included set. -/
theorem searchMethod_ok_subset (E : Ext) (mth : Method) (m : Manifest)
    (ps : Option PreviousState) (args : List String) (included : List String)
    (sel : String) :
    ∀ l, searchMethod E mth m ps args included sel = .ok l →
      ∀ u ∈ l, u ∈ included := by
  intro l h u hu
  by_cases hp : mth = Method.path
  · subst hp
    have h' : pathSearch E m included sel = .ok l := h
    unfold pathSearch at h'
    obtain ⟨q, hq, hxq⟩ := yieldManyE_mem h'
      (fun q hq ys hys x hx => pathNodeYields_only_self E.paths q.1 q.2 ys hys x hx)
      u hu
    rw [hxq]
    exact allNodes_key_included hq
  · have hsub := searchMethod_ok_sublist E mth m ps args included sel hp l h
    have hk := hsub.subset hu
    simp only [akeys, List.mem_map] at hk
    obtain ⟨q, hq, hqu⟩ := hk
    rw [← hqu]
    exact iterListOf_key_included mth m included q hq

/-- Bind of a successful Except computation. -/
theorem ok_bind {α β : Type} (a : α) (f : α → Except PyErr β) :
    ((Except.ok a : Except PyErr α) >>= f) = f a := rfl

/-- The split loop never produces an empty chunk list. -/
theorem splitSepGo_ne_nil (sep : List Char) (fuel : Nat) (l : List Char) :
    splitSepGo sep fuel l ≠ [] := by
  match fuel, l with
  | _, [] => simp [splitSepGo]
  | 0, c :: cs => simp [splitSepGo]
  | fuel + 1, c :: cs =>
    unfold splitSepGo
    split
    · simp
    · split <;> simp

/-- Python str.split always returns at least one chunk. -/
theorem pySplit_ne_nil (s sep : String) : pySplit s sep ≠ [] := by
  unfold pySplit
  intro h
  exact splitSepGo_ne_nil sep.data s.data.length s.data (List.map_eq_nil_iff.mp h)

theorem parsedNodes_nil (m : Manifest) : parsedNodes m [] = [] :=
  includedOf_nil m.nodes

theorem sourceNodes_nil (m : Manifest) : sourceNodes m [] = [] :=
  includedOf_nil m.sources

theorem exposureNodes_nil (m : Manifest) : exposureNodes m [] = [] :=
  includedOf_nil m.exposures

theorem metricNodes_nil (m : Manifest) : metricNodes m [] = [] :=
  includedOf_nil m.metrics

theorem unitTestNodes_nil (m : Manifest) : unitTestNodes m [] = [] :=
  includedOf_nil m.unitTests

theorem semanticModelNodes_nil (m : Manifest) : semanticModelNodes m [] = [] :=
  includedOf_nil m.semanticModels

theorem savedQueryNodes_nil (m : Manifest) : savedQueryNodes m [] = [] :=
  includedOf_nil m.savedQueries

/-- A dotted-name search over no candidates yields nothing when the selector
has at most two parts. -/
theorem dottedNameSearch_nil (E : Ext) (sel errMsg : String)
    (hlen : (pySplit sel ".").length ≤ 2) :
    dottedNameSearch E [] sel errMsg = .ok [] := by
  simp only [dottedNameSearch]
  rcases hp : pySplit sel "." with _ | ⟨a, _ | ⟨b, _ | ⟨c, rest⟩⟩⟩
  · exact absurd hp (pySplit_ne_nil sel ".")
  · simp only [hp]; rfl
  · simp only [hp]; rfl
  · rw [hp] at hlen; simp at hlen

/-- Adding to a set only contributes the added element. -/
theorem mem_saddset {acc : List String} {u x : String}
    (h : x ∈ saddset acc u) : x ∈ acc ∨ x = u := by
  unfold saddset at h
  split at h
  · exact Or.inl h
  · rcases List.mem_append.mp h with h | h
    · exact Or.inl h
    · exact Or.inr (List.mem_singleton.mp h)

/-- Elements of a fold whose step only keeps or inserts the iterated element
come from the initial accumulator or the iterated list. -/
theorem foldl_mem_init_or (g : List String → String → List String)
    (hg : ∀ acc u x, x ∈ g acc u → x ∈ acc ∨ x = u) :
    ∀ (l init : List String) (x : String),
      x ∈ l.foldl g init → x ∈ init ∨ x ∈ l := by
  intro l
  induction l with
  | nil => intro init x hx; exact Or.inl hx
  | cons a rest ih =>
    intro init x hx
    rcases ih (g init a) x hx with h | h
    · rcases hg init a x h with h | h
      · exact Or.inl h
      · exact Or.inr (h ▸ List.mem_cons_self a rest)
    · exact Or.inr (List.mem_cons_of_mem a h)

/-- With pairwise-distinct freshness ids, no id both carries a
max_loaded_at and lacks one. -/
theorem freshness_no_overlap {c : List FreshnessResult}
    (hnd : (c.map FreshnessResult.uniqueId).Nodup) {u : String}
    (h1 : u ∈ akeys (c.filterMap
      (fun r => r.maxLoadedAt.map (fun t => (r.uniqueId, t)))))
    (h2 : u ∈ c.filterMap
      (fun r => if r.maxLoadedAt.isNone then some r.uniqueId else none)) :
    False := by
  simp only [akeys, List.mem_map, List.mem_filterMap] at h1 h2
  obtain ⟨⟨u1, t⟩, ⟨r1, hr1, hmap⟩, hfst⟩ := h1
  obtain ⟨r2, hr2, hif⟩ := h2
  obtain ⟨t0, ht0, hpair⟩ := Option.map_eq_some'.mp hmap
  have hu1 : r1.uniqueId = u := by
    have := congrArg Prod.fst hpair
    simp at this
    rw [this]
    exact hfst
  have hu2 : r2.uniqueId = u ∧ r2.maxLoadedAt.isNone = true := by
    by_cases hno : r2.maxLoadedAt.isNone
    · rw [if_pos hno] at hif
      exact ⟨Option.some.inj hif, hno⟩
    · rw [if_neg hno] at hif
      exact absurd hif (by simp)
  have hr12 : r1 = r2 :=
    List.inj_on_of_nodup_map hnd hr1 hr2 (by rw [hu1, hu2.1])
  rw [← hr12, ht0] at hu2
  exact absurd hu2.2 (by simp)

/-- The source_status search on the empty included set completes and yields
nothing, given one freshness record per source id. -/
theorem sourceStatusSearch_nil_ok (m : Manifest) (ps : PreviousState)
    (s c : List FreshnessResult) (hs : ps.sources = some s)
    (hc : ps.sourcesCurrent = some c)
    (hnd : (c.map FreshnessResult.uniqueId).Nodup) (sel : String) :
    sourceStatusSearch m (some ps) [] sel = .ok [] := by
  simp only [sourceStatusSearch, hs, hc]
  rw [allNodes_nil]
  by_cases hf : sel = "fresher"
  · rw [if_pos hf]
    split
    · next hany =>
      exfalso
      obtain ⟨u, hu, hp⟩ := List.any_eq_true.mp hany
      have hmem := foldl_mem_init_or _
        (by
          intro acc v x hx
          rcases hdp : dlookupLast (s.filterMap
              (fun r => r.maxLoadedAt.map (fun t => (r.uniqueId, t)))) v with _ | w2
          · simp only [hdp] at hx
            exact mem_saddset hx
          · rcases hdl : dlookupLast (c.filterMap
                (fun r => r.maxLoadedAt.map (fun t => (r.uniqueId, t)))) v with _ | w
            · simp only [hdp, hdl] at hx
              exact Or.inl hx
            · simp only [hdp, hdl] at hx
              split at hx
              · exact mem_saddset hx
              · exact Or.inl hx)
        _ [] u hu
      rcases hmem with hmem | hmem
      · simp at hmem
      · have hrt : u ∈ c.filterMap
            (fun r => if r.maxLoadedAt.isNone then some r.uniqueId else none) := by
          rcases Bool.or_eq_true_iff.mp hp with h | h
          · exact of_decide_eq_true h
          · exact of_decide_eq_true h
        exact freshness_no_overlap hnd hmem hrt
    · rfl
  · rw [if_neg hf]
    rfl

/-- The removed-node pass runs to completion when no previous node is
removed from the current manifest. -/
theorem stateRemovedPass_ok_of_removedFree
    (checker : Option STarget → Option STarget → Except PyErr Bool)
    (na af : Bool) (m : Manifest) (l : List (String × STarget))
    (h : ∀ q ∈ l, alookup m.disabled q.1 = none
      ∧ (alookup m.nodes q.1).isSome = true) :
    stateRemovedPass checker na af m l = .ok () := by
  induction l with
  | nil => rfl
  | cons q rest ih =>
    obtain ⟨hd, hn⟩ := h q (List.mem_cons_self q rest)
    have hrest := ih (fun q' hq' => h q' (List.mem_cons_of_mem _ hq'))
    have hnone : (alookup m.nodes q.1).isNone = false := by
      cases hx : alookup m.nodes q.1
      · rw [hx] at hn; simp at hn
      · rfl
    simp only [stateRemovedPass, hd, hnone]
    simp only [Bool.false_eq_true, if_false]
    exact hrest

/-- The state search with a nominated checker yields nothing on the empty
included set, provided the removed pass completes. -/
theorem stateSearch_checker_nil (E : Ext) (m : Manifest) (ps : PreviousState)
    (pm : Manifest) (sel : String)
    (checker : Option STarget → Option STarget → Except PyErr Bool)
    (hpm : ps.manifest = some pm)
    (hch : stateChecker E m pm m.adapterType sel = some checker)
    (hrp : ∀ na af, stateRemovedPass checker na af m pm.nodes = .ok ()) :
    stateSearch E m (some ps) [] sel = .ok [] := by
  have h0 : ∀ p, yieldWhereE [] p = .ok [] := fun _ => rfl
  simp only [stateSearch, hpm, hch]
  rw [allNodes_nil, h0]
  simp only [ok_bind]
  by_cases hr : sel ∈ removedPassKeys
  · rw [if_pos hr, hrp]
    rfl
  · rw [if_neg hr]
    rfl

/-- With a valid state sub-selector and no removed previous node, the state
search on the empty included set yields nothing. -/
theorem stateSearch_nil_ok (E : Ext) (m : Manifest) (ps : PreviousState)
    (pm : Manifest) (hpm : ps.manifest = some pm) (hfree : removedFree m pm)
    (sel : String) (hsel : sel ∈ stateCheckKeys) :
    stateSearch E m (some ps) [] sel = .ok [] := by
  have hrp : ∀ (checker : Option STarget → Option STarget → Except PyErr Bool)
      na af, stateRemovedPass checker na af m pm.nodes = .ok () :=
    fun checker na af =>
      stateRemovedPass_ok_of_removedFree checker na af m pm.nodes hfree
  simp only [stateCheckKeys, List.mem_cons, List.not_mem_nil, or_false] at hsel
  rcases hsel with rfl | rfl | rfl | rfl | rfl | rfl | rfl | rfl | rfl | rfl <;>
    exact stateSearch_checker_nil E m ps pm _ _ hpm rfl (hrp _)

/-- C1 counterexample: the state method with the modified sub-selector, an
empty included set and a previous-manifest node removed from the (empty)
current manifest satisfies the method preconditions, yet search raises
TypeError — the removed pass calls check_modified_content without the
adapter_type keyword argument, which is only filled inside the main loop. -/
theorem c1_counterexample :
    methodOk extDefault .state (some psRemoved) "modified"
    ∧ searchMethod extDefault .state mEmpty (some psRemoved) [] [] "modified"
      = .error .typeError := by
  constructor
  · exact ⟨⟨psRemoved, pmRemoved, rfl, rfl⟩, by decide⟩
  · rfl

/-- C1 (amended): for every registry method, under the method's state
preconditions and a valid selector, and the data-model invariants that no
previous-manifest node is removed or disabled in the current manifest and
that freshness ids are pairwise distinct, a successful search yields only
ids of the included set, and search on the empty included set completes
normally and yields nothing.  (Without the removed-node invariant the
original claim fails: see the counterexample, where the state method's
removed pass raises TypeError on the empty included set.) -/
theorem c1_search_subset_and_empty (E : Ext) (mth : Method) (m : Manifest)
    (ps : Option PreviousState) (args : List String) (included : List String)
    (sel : String)
    (hok : methodOk E mth ps sel)
    (hrem : ∀ p pm, ps = some p → p.manifest = some pm → removedFree m pm)
    (hfresh : freshnessIdsNodup ps) :
    (∀ l, searchMethod E mth m ps args included sel = .ok l →
      ∀ u ∈ l, u ∈ included)
    ∧ searchMethod E mth m ps args [] sel = .ok [] := by
  refine ⟨searchMethod_ok_subset E mth m ps args included sel, ?_⟩
  cases mth
  case fqn => simp only [searchMethod, fqnSearch, nonSourceNodes_nil]; rfl
  case tag => simp only [searchMethod, tagSearch, allNodes_nil]; rfl
  case group => simp only [searchMethod, groupSearch, groupableNodes_nil]; rfl
  case access => simp only [searchMethod, accessSearch, parsedNodes_nil]; rfl
  case source =>
    simp only [searchMethod, sourceSearch, sourceNodes_nil]
    rcases hp : pySplit sel "." with _ | ⟨a, _ | ⟨b, _ | ⟨c, _ | ⟨d, rest⟩⟩⟩⟩
    · exact absurd hp (pySplit_ne_nil sel ".")
    · simp only [hp]; rfl
    · simp only [hp]; rfl
    · simp only [hp]; rfl
    · have hlen : (pySplit sel ".").length ≤ 3 := hok
      rw [hp] at hlen
      simp at hlen
  case path => simp only [searchMethod, pathSearch, allNodes_nil]; rfl
  case file => simp only [searchMethod, fileSearch, allNodes_nil]; rfl
  case package => simp only [searchMethod, packageSearch, allNodes_nil]; rfl
  case config =>
    simp only [searchMethod, configSearch, configurableNodes_nil]; rfl
  case testName =>
    simp only [searchMethod, testNameSearch, parsedAndUnitNodes_nil]; rfl
  case testType =>
    simp only [searchMethod, testTypeSearch, parsedAndUnitNodes_nil]
    have hok' : sel = "generic" ∨ sel = "schema"
        ∨ strContains "data" sel = true ∨ strContains "singular" sel = true
        ∨ strContains "unit" sel = true := hok
    rcases hok' with rfl | rfl | h | h | h
    · rfl
    · rfl
    all_goals cases h1 : (decide (sel = "generic") || decide (sel = "schema"))
    all_goals simp only [h, h1, Bool.true_eq_false, Bool.false_eq_true,
      if_true, if_false]
    all_goals first
      | rfl
      | (cases h2 : strContains "data" sel <;>
          simp only [h2, Bool.true_eq_false, Bool.false_eq_true,
            if_true, if_false] <;>
          first
          | rfl
          | (cases h3 : strContains "singular" sel <;>
              simp only [h3, Bool.true_eq_false, Bool.false_eq_true,
                if_true, if_false] <;> rfl))
  case resourceType =>
    obtain ⟨rt, hrt⟩ := Option.isSome_iff_exists.mp hok
    simp only [searchMethod, resourceTypeSearch, hrt, allNodes_nil]
    rfl
  case state =>
    obtain ⟨⟨p, pm, hps, hpm⟩, hsel⟩ := hok
    subst hps
    exact stateSearch_nil_ok E m p pm hpm (hrem p pm rfl hpm) sel hsel
  case exposure =>
    simp only [searchMethod, exposureSearch, exposureNodes_nil]
    exact dottedNameSearch_nil E sel _ hok
  case metric =>
    simp only [searchMethod, metricSearch, metricNodes_nil]
    exact dottedNameSearch_nil E sel _ hok
  case result =>
    obtain ⟨p, rs, hps, hrs⟩ := hok
    subst hps
    simp only [searchMethod, resultSearch, hrs, allNodes_nil]
    rfl
  case sourceStatus =>
    obtain ⟨p, sr, cr, hps, hsr, hcr⟩ := hok
    subst hps
    exact sourceStatusSearch_nil_ok m p sr cr hsr hcr (hfresh p cr rfl hcr) sel
  case version =>
    simp only [searchMethod, versionSearch, parsedNodes_nil]; rfl
  case semanticModel =>
    simp only [searchMethod, semanticModelSearch, semanticModelNodes_nil]
    exact dottedNameSearch_nil E sel _ hok
  case savedQuery =>
    simp only [searchMethod, savedQuerySearch, savedQueryNodes_nil]
    exact dottedNameSearch_nil E sel _ hok
  case unitTest =>
    simp only [searchMethod, unitTestSearch, unitTestNodes_nil]
    exact dottedNameSearch_nil E sel _ hok

/-- Witness for the amended C1 at the state method with an empty previous
manifest: subset containment holds for a one-id included set and the empty
search yields nothing. -/
theorem c1_search_subset_and_empty_witness :
    (∀ l, searchMethod extDefault .state mEmpty (some psEmpty) []
        ["model.pkg.m"] "modified" = .ok l → ∀ u ∈ l, u ∈ ["model.pkg.m"])
    ∧ searchMethod extDefault .state mEmpty (some psEmpty) [] [] "modified"
      = .ok [] :=
  c1_search_subset_and_empty extDefault .state mEmpty (some psEmpty) []
    ["model.pkg.m"] "modified"
    ⟨⟨psEmpty, mEmpty, rfl, rfl⟩, by decide⟩
    (fun p pm hp hpm q hq => by
      cases hp
      cases hpm
      exact absurd hq (by simp [mEmpty]))
    (fun p cr hp hc => by
      cases hp
      exact Option.noConfusion hc)

/-- A mapping entry whose key is included appears among the all_nodes
candidates. -/
theorem mem_allNodes_of_key_included {m : Manifest} {included : List String}
    {q : String × STarget} (h : q ∈ allMappings m) (hin : q.1 ∈ included) :
    q ∈ allNodes m included := by
  simp only [allMappings, List.mem_append] at h
  simp only [allNodes, parsedNodes, sourceNodes, exposureNodes, metricNodes,
    unitTestNodes, semanticModelNodes, savedQueryNodes, List.mem_append,
    mem_includedOf]
  tauto

/-- check_unmodified_content is the boolean negation of
check_modified_content. -/
theorem checkUnmodifiedContent_ok (E : Ext) (cur pm : Manifest)
    (old new : Option STarget) (at? : Option String) (b : Bool)
    (h : checkModifiedContent E cur pm old new at? = .ok b) :
    checkUnmodifiedContent E cur pm old new at? = .ok (!b) := by
  simp only [checkUnmodifiedContent]
  rw [h]
  rfl

/-- check_modified_content never raises when the examined node's macro
dependencies all resolve in the current macros mapping. -/
theorem checkModifiedContent_total (E : Ext) (cur pm : Manifest)
    (old n? : Option STarget) (at? : Option String)
    (hcl2 : ∀ q ∈ cur.macros, ∀ d ∈ (q : String × MacroDef).2.dependsOnMacros,
      (alookup cur.macros d).isSome = true)
    (hn : ∀ node deps, n? = some node → node.dependsOnMacros = some deps →
      ∀ d ∈ deps, (alookup cur.macros d).isSome = true) :
    ∃ b, checkModifiedContent E cur pm old n? at? = .ok b := by
  obtain ⟨c, hc⟩ := checkMacrosModified_total cur pm n? hcl2 hn
  cases hres : checkModifiedContent E cur pm old n? at? with
  | ok b => exact ⟨b, rfl⟩
  | error e =>
    exfalso
    simp only [checkModifiedContent, hc] at hres
    simp only [ok_bind] at hres
    exact absurd hres (by simp [pure, Except.pure])

/-- Bind of an Except pure value. -/
theorem pure_bind_ok {α β : Type} (a : α) (f : α → Except PyErr β) :
    ((pure a : Except PyErr α) >>= f) = f a := rfl

/-- The removed pass completes whenever the adapter keyword is available if
needed, disabled entries are non-empty, and the checker is total on
(removed, None) inputs. -/
theorem stateRemovedPass_total
    (checker : Option STarget → Option STarget → Except PyErr Bool)
    (na af : Bool) (m : Manifest)
    (hguard : (na && !af) = false)
    (hdis : disabledNonEmpty m)
    (hck : ∀ rn, ∃ b, checker (some rn) none = .ok b) :
    ∀ l, stateRemovedPass checker na af m l = .ok () := by
  intro l
  induction l with
  | nil => rfl
  | cons q rest ih =>
    cases hd : alookup m.disabled q.1 with
    | some shells =>
      have hne : shells ≠ [] := hdis (q.1, shells) (alookup_mem hd)
      cases shells with
      | nil => exact absurd rfl hne
      | cons shell srest =>
        obtain ⟨b, hb⟩ := hck shell
        simp only [stateRemovedPass, hd, hguard, Bool.false_eq_true, if_false,
          pure_bind_ok]
        rw [hb]
        simp only [ok_bind]
        exact ih
    | none =>
      cases hx : alookup m.nodes q.1 with
      | some v =>
        have hnone : (alookup m.nodes q.1).isNone = false := by rw [hx]; rfl
        simp only [stateRemovedPass, hd, hnone, Bool.false_eq_true, if_false,
          pure_bind_ok]
        exact ih
      | none =>
        have hnone : (alookup m.nodes q.1).isNone = true := by rw [hx]; rfl
        obtain ⟨b, hb⟩ := hck q.2
        simp only [stateRemovedPass, hd, hnone, hguard, Bool.false_eq_true,
          if_false, if_true, pure_bind_ok]
        rw [hb]
        simp only [ok_bind]
        exact ih

/-- C6: with a previous manifest present and every included id resolving to
a current-manifest entry (uniquely, per the id-uniqueness invariant, with
macro dependencies closed and disabled shells non-empty), the modified and
unmodified state searches partition the included set: their results are
disjoint, their union is the included set, and both searches complete
whenever the included set is non-empty. -/
theorem c6_state_modified_unmodified_partition (E : Ext) (m : Manifest)
    (ps : PreviousState) (pm : Manifest) (included : List String)
    (hpm : ps.manifest = some pm)
    (hres : ∀ u ∈ included, u ∈ akeys (allMappings m))
    (hnd : idsNodup m)
    (hmac : macroDepsClosed m)
    (hdis : disabledNonEmpty m) :
    (∀ lm lu,
      stateSearch E m (some ps) included "modified" = .ok lm →
      stateSearch E m (some ps) included "unmodified" = .ok lu →
      (∀ u, ¬(u ∈ lm ∧ u ∈ lu))
        ∧ ∀ u, u ∈ included ↔ (u ∈ lm ∨ u ∈ lu))
    ∧ (included ≠ [] →
        ∃ lm lu, stateSearch E m (some ps) included "modified" = .ok lm
          ∧ stateSearch E m (some ps) included "unmodified" = .ok lu) := by
  have hchm : stateChecker E m pm m.adapterType "modified"
      = some (fun old new =>
          checkModifiedContent E m pm old new m.adapterType) := rfl
  have hchu : stateChecker E m pm m.adapterType "unmodified"
      = some (fun old new =>
          checkUnmodifiedContent E m pm old new m.adapterType) := rfl
  have hnodup : (akeys (allNodes m included)).Nodup :=
    List.Nodup.sublist (allNodes_keys_sublist m included) hnd
  have hdestr_m : ∀ lm, stateSearch E m (some ps) included "modified" = .ok lm →
      yieldWhereE (allNodes m included)
        (fun uid node => checkModifiedContent E m pm (previousNode pm uid)
          (some node) m.adapterType) = .ok lm := by
    intro lm hm
    simp only [stateSearch, hpm, hchm] at hm
    obtain ⟨main, hmain, h2⟩ := bindOk hm
    rw [if_pos (show "modified" ∈ removedPassKeys by decide)] at h2
    obtain ⟨u0, hrp, h3⟩ := bindOk h2
    simp only [pure, Except.pure, Except.ok.injEq] at h3
    rw [← h3]
    exact hmain
  have hdestr_u : ∀ lu, stateSearch E m (some ps) included "unmodified" = .ok lu →
      yieldWhereE (allNodes m included)
        (fun uid node => checkUnmodifiedContent E m pm (previousNode pm uid)
          (some node) m.adapterType) = .ok lu := by
    intro lu hu
    simp only [stateSearch, hpm, hchu] at hu
    obtain ⟨main, hmain, h2⟩ := bindOk hu
    rw [if_pos (show "unmodified" ∈ removedPassKeys by decide)] at h2
    obtain ⟨u0, hrp, h3⟩ := bindOk h2
    simp only [pure, Except.pure, Except.ok.injEq] at h3
    rw [← h3]
    exact hmain
  have hkey : ∀ lm lu,
      yieldWhereE (allNodes m included)
        (fun uid node => checkModifiedContent E m pm (previousNode pm uid)
          (some node) m.adapterType) = .ok lm →
      yieldWhereE (allNodes m included)
        (fun uid node => checkUnmodifiedContent E m pm (previousNode pm uid)
          (some node) m.adapterType) = .ok lu →
      ∀ u ∈ included, ∃ b : Bool, (u ∈ lm ↔ b = true) ∧ (u ∈ lu ↔ b = false) := by
    intro lm lu hmainm hmainu u hu
    have h1 := hres u hu
    simp only [akeys, List.mem_map] at h1
    obtain ⟨⟨u1, n⟩, hqm, rfl⟩ := h1
    have hmemAll : (u1, n) ∈ allNodes m included :=
      mem_allNodes_of_key_included hqm hu
    obtain ⟨b, hb⟩ := checkModifiedContent_total E m pm (previousNode pm u1)
      (some n) m.adapterType hmac.2
      (fun node deps hnode hdeps d hd => by
        cases Option.some.inj hnode
        exact hmac.1 (u1, n) hqm deps hdeps d hd)
    have hub := checkUnmodifiedContent_ok E m pm (previousNode pm u1)
      (some n) m.adapterType b hb
    have hmm : u1 ∈ lm ↔ checkModifiedContent E m pm (previousNode pm u1)
        (some n) m.adapterType = .ok true :=
      yieldWhereE_mem_iff hmainm hnodup hmemAll
    have hmu : u1 ∈ lu ↔ checkUnmodifiedContent E m pm (previousNode pm u1)
        (some n) m.adapterType = .ok true :=
      yieldWhereE_mem_iff hmainu hnodup hmemAll
    refine ⟨b, ?_, ?_⟩
    · rw [hmm, hb]
      simp
    · rw [hmu, hub]
      simp
  refine ⟨?_, ?_⟩
  · intro lm lu hm hu'
    have hmainm := hdestr_m lm hm
    have hmainu := hdestr_u lu hu'
    have hkey' := hkey lm lu hmainm hmainu
    have hlmsub : ∀ u, u ∈ lm → u ∈ included := by
      intro u hx
      have hsub := (yieldWhereE_ok_sublist hmainm).subset hx
      simp only [akeys, List.mem_map] at hsub
      obtain ⟨q, hq, rfl⟩ := hsub
      exact allNodes_key_included hq
    have hlusub : ∀ u, u ∈ lu → u ∈ included := by
      intro u hx
      have hsub := (yieldWhereE_ok_sublist hmainu).subset hx
      simp only [akeys, List.mem_map] at hsub
      obtain ⟨q, hq, rfl⟩ := hsub
      exact allNodes_key_included hq
    constructor
    · rintro u ⟨h1, h2⟩
      obtain ⟨b, hb1, hb2⟩ := hkey' u (hlmsub u h1)
      rw [hb1] at h1
      rw [hb2] at h2
      rw [h1] at h2
      exact Bool.noConfusion h2
    · intro u
      constructor
      · intro hu2
        obtain ⟨b, hb1, hb2⟩ := hkey' u hu2
        cases b
        · exact Or.inr (hb2.mpr rfl)
        · exact Or.inl (hb1.mpr rfl)
      · rintro (h | h)
        · exact hlmsub u h
        · exact hlusub u h
  · intro hne
    have hcl2 := hmac.2
    have htotm : ∀ q ∈ allNodes m included,
        ∃ b, checkModifiedContent E m pm (previousNode pm q.1) (some q.2)
          m.adapterType = .ok b := by
      intro q hq
      exact checkModifiedContent_total E m pm (previousNode pm q.1)
        (some q.2) m.adapterType hcl2
        (fun node deps hnode hdeps d hd => by
          cases Option.some.inj hnode
          exact hmac.1 q (mem_allMappings_of_mem_allNodes hq) deps hdeps d hd)
    have htotu : ∀ q ∈ allNodes m included,
        ∃ b, checkUnmodifiedContent E m pm (previousNode pm q.1) (some q.2)
          m.adapterType = .ok b := by
      intro q hq
      obtain ⟨b, hb⟩ := htotm q hq
      exact ⟨!b, checkUnmodifiedContent_ok E m pm (previousNode pm q.1)
        (some q.2) m.adapterType b hb⟩
    obtain ⟨mainm, hmainm⟩ := @yieldWhereE_total (allNodes m included)
      (fun uid node => checkModifiedContent E m pm (previousNode pm uid)
        (some node) m.adapterType) htotm
    obtain ⟨mainu, hmainu⟩ := @yieldWhereE_total (allNodes m included)
      (fun uid node => checkUnmodifiedContent E m pm (previousNode pm uid)
        (some node) m.adapterType) htotu
    have hemp : (allNodes m included).isEmpty = false := by
      obtain ⟨u0, hu0⟩ := List.exists_mem_of_ne_nil included hne
      have h1 := hres u0 hu0
      simp only [akeys, List.mem_map] at h1
      obtain ⟨⟨u1, n⟩, hqm, rfl⟩ := h1
      have hmemAll := mem_allNodes_of_key_included hqm hu0
      cases hall : allNodes m included
      · rw [hall] at hmemAll
        simp at hmemAll
      · rfl
    have hck_m : ∀ rn, ∃ b, checkModifiedContent E m pm (some rn) none
        m.adapterType = .ok b :=
      fun rn => checkModifiedContent_total E m pm (some rn) none m.adapterType
        hcl2 (fun node deps hnode => nomatch hnode)
    have hck_u : ∀ rn, ∃ b, checkUnmodifiedContent E m pm (some rn) none
        m.adapterType = .ok b := by
      intro rn
      obtain ⟨b, hb⟩ := hck_m rn
      exact ⟨!b, checkUnmodifiedContent_ok E m pm (some rn) none
        m.adapterType b hb⟩
    have hrp_m := stateRemovedPass_total
      (fun old new => checkModifiedContent E m pm old new m.adapterType)
      (decide ("modified" ∈ kwargsKeys)) (!(allNodes m included).isEmpty) m
      (by rw [hemp]; rfl) hdis (fun rn => hck_m rn) pm.nodes
    have hrp_u := stateRemovedPass_total
      (fun old new => checkUnmodifiedContent E m pm old new m.adapterType)
      (decide ("unmodified" ∈ kwargsKeys)) (!(allNodes m included).isEmpty) m
      (by rw [hemp]; rfl) hdis (fun rn => hck_u rn) pm.nodes
    refine ⟨mainm, mainu, ?_, ?_⟩
    · simp only [stateSearch, hpm, hchm]
      rw [hmainm]
      simp only [ok_bind]
      rw [if_pos (show "modified" ∈ removedPassKeys by decide)]
      rw [hrp_m]
      simp only [ok_bind]
      rfl
    · simp only [stateSearch, hpm, hchu]
      rw [hmainu]
      simp only [ok_bind]
      rw [if_pos (show "unmodified" ∈ removedPassKeys by decide)]
      rw [hrp_u]
      simp only [ok_bind]
      rfl

/-- Witness for C6 at the macro scenario: current macro a changed its sql,
the one included model depends on it through macro b, and both state
searches complete on the one-id included set. -/
theorem c6_state_modified_unmodified_partition_witness :
    ∃ lm lu,
      stateSearch extDefault mMacros (some psMacros) ["model.pkg.m"]
        "modified" = .ok lm
      ∧ stateSearch extDefault mMacros (some psMacros) ["model.pkg.m"]
        "unmodified" = .ok lu :=
  (c6_state_modified_unmodified_partition extDefault mMacros psMacros pmMacros
    ["model.pkg.m"] rfl (by decide)
    (by show (akeys (allMappings mMacros)).Nodup; decide)
    ⟨by
      intro q hq deps hdeps d hd
      simp only [mMacros, mEmpty] at hq
      simp only [List.append_nil, List.mem_singleton] at hq
      subst hq
      simp only [nodeM] at hdeps
      cases Option.some.inj hdeps
      simp only [List.mem_singleton] at hd
      subst hd
      decide,
     by
      intro q hq d hd
      simp only [mMacros, mEmpty, List.mem_cons, List.not_mem_nil,
        or_false] at hq
      rcases hq with rfl | rfl
      · simp at hd
      · simp only [List.mem_singleton] at hd
        subst hd
        decide⟩
    (fun q hq => nomatch hq)).2 (by decide)

end DbtSel
